import Mathlib

/-!
Verification of the maxio object-storage server core against its specification.

Each section is a shallow embedding of one subsystem of the Rust sources:

* `Maxio.Repl`    — replication per-target status tracking
                    (crates/maxio-distributed/src/replication/state.rs)
* `Maxio.Xl`      — single-disk XL bucket operations and versioning state
                    (crates/maxio-storage/src/xl/storage.rs,
                     crates/maxio-s3-api/src/handlers/versioning.rs)
* `Maxio.VIndex`  — the per-object `.versions.json` index under Enabled versioning
* `Maxio.Migrate` — legacy-object migration to version id "null"
* `Maxio.Mux`     — grid mux client sequence allocation and timeout
                    (crates/maxio-distributed/src/grid/mux.rs)
* `Maxio.Heal`    — healing canonical-meta election
                    (crates/maxio-distributed/src/healing/heal.rs)
* `Maxio.Dsync`   — distributed lock quorum acquisition
                    (crates/maxio-distributed/src/dsync/client.rs, drwmutex.rs)
* `Maxio.Erasure` — erasure codec and the erasure object read path
                    (crates/maxio-storage/src/erasure/mod.rs, objects.rs)

Stateful Rust code becomes explicit state passing; fallible code returns `Except`;
`u32`/`usize`/`i64` arithmetic is `Nat`/`Int` with explicit wrap where it matters.
-/

deriving instance DecidableEq for Except

namespace Maxio

/-- Error kinds of `MaxioError` (crates/maxio-common/src/error.rs), restricted to the
variants exercised by the modelled operations.  Message payloads keep the text of the
Rust format strings with the interpolated values appended. -/
inductive MaxioError where
  | BucketNotFound (bucket : String)
  | BucketAlreadyExists (bucket : String)
  | ObjectNotFound (bucket key : String)
  | InvalidBucketName (bucket : String)
  | InvalidObjectName (key : String)
  | InvalidArgument (msg : String)
  | InternalError (msg : String)
  | AccessDenied (msg : String)
deriving DecidableEq

/-- Bucket versioning state (crates/maxio-storage/src/traits.rs, `VersioningState`). -/
inductive VersioningState where
  | Unversioned
  | Enabled
  | Suspended
deriving DecidableEq

namespace Repl

/-- Per-target replication status (replication/state.rs, `StatusType`). -/
inductive StatusType where
  | Pending
  | Completed
  | Failed
  | Replica
deriving DecidableEq

/-- Overall replication status (replication/types.rs, `ReplicationStatus`), as produced
by `get_overall_status`. -/
inductive ReplicationStatus where
  | Pending
  | Completed
  | Failed
deriving DecidableEq

/-- One replication target of an object; only the `arn` field of the Rust target struct
is consulted by the state tracker. -/
structure ReplTarget where
  arn : String
deriving DecidableEq

/-- The fields of `ReplicateObjectInfo` consulted by `mark_targets_pending` and the
status queries (replication/types.rs). -/
structure ReplicateObjectInfo where
  bucket : String
  object : String
  version_id : Option String
  targets : List ReplTarget
deriving DecidableEq

/-- Per-object replication state: the per-target status map (`targets`) of
`ObjectReplicationState`.  The `updated_at` wall-clock field is omitted: no modelled
observation depends on it.  The Rust `HashMap` is an association list here; keys are
kept unique by `mapInsert`. -/
structure ObjectReplicationState where
  targets : List (String × StatusType)
deriving DecidableEq

/-- Insert-or-replace for the association lists standing in for Rust `HashMap`s. -/
def mapInsert {γ : Type} (m : List (String × γ)) (k : String) (v : γ) : List (String × γ) :=
  match m with
  | [] => [(k, v)]
  | (k0, v0) :: rest => if k0 = k then (k, v) :: rest else (k0, v0) :: mapInsert rest k v

/-- Lookup for the association lists standing in for Rust `HashMap`s. -/
def mapLookup {γ : Type} (m : List (String × γ)) (k : String) : Option γ :=
  match m with
  | [] => none
  | (k0, v0) :: rest => if k0 = k then some v0 else mapLookup rest k

/-- The whole `ReplicationState`: object key to per-object state (state.rs line 25). -/
structure ReplicationState where
  objects : List (String × ObjectReplicationState)
deriving DecidableEq

/-- `object_key` (state.rs lines 114-119). -/
def objectKey (bucket object : String) (version_id : Option String) : String :=
  match version_id with
  | some v => if v ≠ "" then bucket ++ "/" ++ object ++ "/" ++ v else bucket ++ "/" ++ object
  | none => bucket ++ "/" ++ object

/-- `ReplicationState::mark_targets_pending` (state.rs lines 35-50): build a fresh
per-target map marking every target of `info` as `Pending`, then store it under the
object key, replacing any previous entry. -/
def markTargetsPending (st : ReplicationState) (info : ReplicateObjectInfo) : ReplicationState :=
  let key := objectKey info.bucket info.object info.version_id
  let targets := info.targets.foldl (fun acc t => mapInsert acc t.arn StatusType.Pending) []
  { objects := mapInsert st.objects key { targets := targets } }

/-- `ReplicationState::get_object_state` (state.rs lines 70-79). -/
def getObjectState (st : ReplicationState) (bucket object : String)
    (version_id : Option String) : Option ObjectReplicationState :=
  mapLookup st.objects (objectKey bucket object version_id)

/-- `ReplicationState::get_overall_status` (state.rs lines 81-105): `Completed` when
every target status is `Completed` or `Replica`, else `Failed` when any target failed,
else `Pending`; `none` when the object is untracked. -/
def getOverallStatus (st : ReplicationState) (bucket object : String)
    (version_id : Option String) : Option ReplicationStatus :=
  match getObjectState st bucket object version_id with
  | none => none
  | some objectState =>
    if objectState.targets.all
        (fun p => p.2 = StatusType.Completed ∨ p.2 = StatusType.Replica) then
      some ReplicationStatus.Completed
    else if objectState.targets.any (fun p => p.2 = StatusType.Failed) then
      some ReplicationStatus.Failed
    else
      some ReplicationStatus.Pending

end Repl

namespace Xl

/-- Content of one bucket directory, as far as `make_bucket` / `delete_bucket` /
versioning are concerned: the object entries (subdirectories) and the
`.versioning.json` file, which is present iff `versioningFile` is `some` and then
stores the serialized `VersioningState`.  `delete_bucket` inspects the raw directory
entries, so both kinds count as content. -/
structure BucketDir where
  objects : List String
  versioningFile : Option VersioningState
deriving DecidableEq

/-- The per-disk root directory: bucket name to bucket directory. -/
structure XlRoot where
  buckets : List (String × BucketDir)
deriving DecidableEq

/-- Insert-or-replace on the bucket map. -/
def rootInsert (fs : XlRoot) (name : String) (dir : BucketDir) : XlRoot :=
  { buckets := Repl.mapInsert fs.buckets name dir }

/-- Lookup on the bucket map. -/
def rootLookup (fs : XlRoot) (name : String) : Option BucketDir :=
  Repl.mapLookup fs.buckets name

/-- Remove a bucket from the map (`fs::remove_dir`). -/
def rootRemove (fs : XlRoot) (name : String) : XlRoot :=
  { buckets := fs.buckets.filter (fun p => p.1 ≠ name) }

/-- Character containment on strings (`str::contains(char)`), written over the
underlying character list so that it evaluates inside the kernel. -/
def strContainsChar (s : String) (c : Char) : Bool :=
  s.data.any (fun a => a = c)

/-- `validate_bucket_name` (xl/storage.rs lines 1479-1489). -/
def validateBucketName (bucket : String) : Except MaxioError Unit :=
  if bucket = "" ∨ bucket = ".maxio.sys" ∨ bucket = ".crypto"
      ∨ strContainsChar bucket '/' ∨ strContainsChar bucket '\\' then
    Except.error (MaxioError.InvalidBucketName bucket)
  else
    Except.ok ()

/-- `XlStorage::set_bucket_versioning` (xl/storage.rs lines 190-202): requires the
bucket directory to exist, then unconditionally serializes and writes the given state
to `.versioning.json` — no transition restriction is enforced at this layer. -/
def setBucketVersioning (fs : XlRoot) (bucket : String) (state : VersioningState) :
    Except MaxioError XlRoot := do
  validateBucketName bucket
  match rootLookup fs bucket with
  | none => Except.error (MaxioError.BucketNotFound bucket)
  | some dir => Except.ok (rootInsert fs bucket { dir with versioningFile := some state })

/-- `XlStorage::read_bucket_versioning` (xl/storage.rs lines 1197-1208): a missing
`.versioning.json` file reads as `Unversioned`. -/
def readBucketVersioning (fs : XlRoot) (bucket : String) : Except MaxioError VersioningState :=
  match rootLookup fs bucket with
  | none => Except.ok VersioningState.Unversioned
  | some dir => Except.ok (dir.versioningFile.getD VersioningState.Unversioned)

/-- `XlStorage::make_bucket` (xl/storage.rs lines 101-113): create the empty bucket
directory, then call `set_bucket_versioning(bucket, Unversioned)`, which writes the
`.versioning.json` file into the new directory. -/
def makeBucket (fs : XlRoot) (bucket : String) : Except MaxioError XlRoot := do
  validateBucketName bucket
  match rootLookup fs bucket with
  | some _ => Except.error (MaxioError.BucketAlreadyExists bucket)
  | none =>
    let fs1 := rootInsert fs bucket { objects := [], versioningFile := none }
    setBucketVersioning fs1 bucket VersioningState.Unversioned

/-- `XlStorage::delete_bucket` (xl/storage.rs lines 164-182): reads the bucket
directory and fails with `InvalidArgument` if it yields any entry at all — objects and
the `.versioning.json` file alike; only a completely empty directory is removed. -/
def deleteBucket (fs : XlRoot) (bucket : String) : Except MaxioError XlRoot := do
  validateBucketName bucket
  match rootLookup fs bucket with
  | none => Except.error (MaxioError.BucketNotFound bucket)
  | some dir =>
    if dir.objects ≠ [] ∨ dir.versioningFile.isSome then
      Except.error (MaxioError.InvalidArgument ("bucket is not empty: " ++ bucket))
    else
      Except.ok (rootRemove fs bucket)

/-- `parse_status` of the S3 versioning handler
(crates/maxio-s3-api/src/handlers/versioning.rs lines 82-93): the only accepted
`Status` values are "Enabled" and "Suspended"; everything else is rejected. -/
def parseStatus (status : Option String) : Except MaxioError VersioningState :=
  match status with
  | some s =>
    if s = "Enabled" then Except.ok VersioningState.Enabled
    else if s = "Suspended" then Except.ok VersioningState.Suspended
    else Except.error (MaxioError.InvalidArgument ("invalid versioning status: " ++ s))
  | none => Except.error (MaxioError.InvalidArgument "missing versioning status")

/-- Effect of one `put_bucket_versioning` handler call (versioning.rs lines 150-162)
on the stored state of an existing bucket: a parse failure returns 400 without calling
`set_bucket_versioning`, a parse success stores the parsed state. -/
def handlerStep (state : VersioningState) (status : Option String) : VersioningState :=
  match parseStatus status with
  | Except.ok newState => newState
  | Except.error _ => state

/-- The bucket state reached by a fresh `make_bucket "b"`; used by the C5 theorem. -/
def freshBucketRoot : XlRoot :=
  { buckets := [("b", { objects := [], versioningFile := some VersioningState.Unversioned })] }

end Xl

namespace VIndex

/-- One entry of the per-object `.versions.json` index
(xl/storage.rs lines 58-65, `VersionIndexEntry`).  `last_modified` is an abstract
timestamp; `size` mirrors the Rust `i64`. -/
structure VersionIndexEntry where
  version_id : String
  is_delete_marker : Bool
  last_modified : Nat
  etag : Option String
  size : Int
deriving DecidableEq

/-- A successful mutation of one object under `Enabled` versioning: `put` is
`put_object`'s versioned branch (a fresh UUID version id, the object's etag and size);
`deleteMarker` is `delete_object`'s Enabled branch (a fresh UUID marker id). -/
inductive VersionedOp where
  | put (version_id etag : String) (size : Int) (mod_time : Nat)
  | deleteMarker (version_id : String) (mod_time : Nat)
deriving DecidableEq

/-- The index entry each operation prepends.  `put_object` (xl/storage.rs lines
322-331) inserts `{version_id, is_delete_marker: false, last_modified, etag: Some,
size}` at index 0; `delete_object` (lines 492-501) inserts `{version_id,
is_delete_marker: true, last_modified, etag: None, size: 0}` at index 0. -/
def entryOf : VersionedOp → VersionIndexEntry
  | VersionedOp.put vid etag size t =>
    { version_id := vid, is_delete_marker := false, last_modified := t,
      etag := some etag, size := size }
  | VersionedOp.deleteMarker vid t =>
    { version_id := vid, is_delete_marker := true, last_modified := t,
      etag := none, size := 0 }

/-- Effect of one Enabled-versioning mutation on the index: `versions.insert(0, …)`. -/
def stepEnabled (versions : List VersionIndexEntry) (op : VersionedOp) :
    List VersionIndexEntry :=
  entryOf op :: versions

/-- The index after a sequence of Enabled-versioning mutations on a fresh object,
applied in call order. -/
def applyOps (ops : List VersionedOp) : List VersionIndexEntry :=
  ops.foldl stepEnabled []

end VIndex

namespace Mux

/-- Grid error kinds (crates/maxio-distributed/src/errors.rs), restricted to the
variants produced by `MuxClient::request`. -/
inductive GridError where
  | RequestTimeout (seq : Nat)
  | ConnectionClosed
  | UnexpectedResponse (seq : Nat)
deriving DecidableEq

/-- Cardinality of `u32`: the `next_seq` counter is an `AtomicU32` whose `fetch_add`
wraps at this bound. -/
def u32Card : Nat := 4294967296

/-- The per-client mux state (mux.rs lines 17-22): the `next_seq` counter value and
the keys of the `pending` map.  The map values are oneshot senders, irrelevant to the
sequencing claims; an insert on a colliding key would silently replace the earlier
waiter, which is exactly why seq freshness matters. -/
structure MuxClientState where
  nextSeq : Nat
  pending : List Nat
deriving DecidableEq

/-- `MuxClient::new` (mux.rs lines 25-32): the counter starts at 1 with no pending
entries. -/
def initState : MuxClientState := { nextSeq := 1, pending := [] }

/-- The allocation performed at the head of `request` (mux.rs lines 35-40):
`fetch_add(1)` returns the old counter value as the seq, wraps the stored counter at
`u32`, and the seq is inserted into the pending table. -/
def allocStep (st : MuxClientState) : Nat × MuxClientState :=
  (st.nextSeq,
   { nextSeq := (st.nextSeq + 1) % u32Card, pending := st.nextSeq :: st.pending })

/-- Removal of a pending entry, as performed on response delivery
(`handle_response`), send failure, oneshot drop, or timeout (mux.rs lines 42-57, 61).
-/
def completeStep (st : MuxClientState) (seq : Nat) : MuxClientState :=
  { st with pending := st.pending.erase seq }

/-- The timeout arm of `request` (mux.rs lines 53-56): remove the pending entry and
return `RequestTimeout` carrying the seq. -/
def timeoutStep (st : MuxClientState) (seq : Nat) : GridError × MuxClientState :=
  (GridError.RequestTimeout seq, completeStep st seq)

/-- Interleaved history of one mux client: allocations (one per `request` call) and
completions (response, failure, or timeout each remove one pending entry). -/
inductive MuxEvent where
  | alloc
  | complete (seq : Nat)

/-- One history event applied to the client state. -/
def muxStep (st : MuxClientState) (e : MuxEvent) : MuxClientState :=
  match e with
  | MuxEvent.alloc => (allocStep st).2
  | MuxEvent.complete s => completeStep st s

/-- The client state after a history, starting from `MuxClient::new`. -/
def runMux (events : List MuxEvent) : MuxClientState :=
  events.foldl muxStep initState

/-- Number of allocations (i.e. `request` calls) in a history. -/
def countAllocs (events : List MuxEvent) : Nat :=
  events.countP (fun e => match e with | MuxEvent.alloc => true | _ => false)

/-- Invariant tying the state to the number of allocations performed so far. -/
def MuxInv (st : MuxClientState) (k : Nat) : Prop :=
  st.nextSeq = (1 + k) % u32Card
  ∧ st.pending.Nodup
  ∧ ∀ s ∈ st.pending, ∃ i, i < k ∧ s = (1 + i) % u32Card

end Mux

namespace Migrate

/-- The fields of the legacy `xl.meta` consulted by `ensure_versions_index`
(xl/storage.rs lines 37-49, 1275-1331). -/
structure XlMetaLite where
  data_dir : String
  size : Int
  etag : String
  mod_time : Nat
  version_id : Option String
  is_delete_marker : Bool
deriving DecidableEq

/-- On-disk state of one object directory, as consulted by
`ensure_versions_index`: the `.versions.json` content (a missing file reads as the
empty list, matching `read_versions_index`), the legacy root `xl.meta`, the legacy
`<data_dir>/part.1` content, and the `"null"` version subtree. -/
structure ObjState where
  index : List VIndex.VersionIndexEntry
  legacyMeta : Option XlMetaLite
  legacyData : Option (List Nat)
  nullMeta : Option XlMetaLite
  nullData : Option (List Nat)
deriving DecidableEq

/-- Mutating filesystem effects of `ensure_versions_index`, in the order the code
issues them. -/
inductive MigEffect where
  | createNullDir
  | writeNullData
  | writeNullMeta
  | removeLegacyDataDir
  | removeLegacyMeta
  | writeVersionsIndexFile
deriving DecidableEq

/-- `XlStorage::ensure_versions_index` (xl/storage.rs lines 1275-1331), returning the
state after the call, the ordered trace of mutating effects, and the result.  When the
index is non-empty it is returned untouched; when there is no legacy meta an empty
index is returned; otherwise the legacy object is migrated to version id "null":
create the `"null"` directory, copy the data file, write the migrated meta, remove the
legacy data directory, remove the legacy `xl.meta`, and write `.versions.json` last.
-/
def ensureVersionsIndex (bucket key : String) (st : ObjState) :
    ObjState × List MigEffect × Except MaxioError (List VIndex.VersionIndexEntry) :=
  if st.index ≠ [] then (st, [], Except.ok st.index)
  else
    match st.legacyMeta with
    | none => (st, [], Except.ok [])
    | some legacy =>
      let migrated := { legacy with version_id := some "null", is_delete_marker := false }
      match st.legacyData with
      | none =>
        ({ st with nullMeta := st.nullMeta }, [MigEffect.createNullDir],
         Except.error (MaxioError.ObjectNotFound bucket key))
      | some bytes =>
        let entry : VIndex.VersionIndexEntry :=
          { version_id := "null", is_delete_marker := false,
            last_modified := migrated.mod_time, etag := some migrated.etag,
            size := migrated.size }
        ({ index := [entry], legacyMeta := none, legacyData := none,
           nullMeta := some migrated, nullData := some bytes },
         [MigEffect.createNullDir, MigEffect.writeNullData, MigEffect.writeNullMeta,
          MigEffect.removeLegacyDataDir, MigEffect.removeLegacyMeta,
          MigEffect.writeVersionsIndexFile],
         Except.ok [entry])

/-- The effect order asserted by the claim: the `.versions.json` write happens before
every legacy deletion (deletions come last). -/
def claimMigOrder (tr : List MigEffect) : Prop :=
  tr.findIdx (fun e => e = MigEffect.writeVersionsIndexFile)
      < tr.findIdx (fun e => e = MigEffect.removeLegacyDataDir)
  ∧ tr.findIdx (fun e => e = MigEffect.writeVersionsIndexFile)
      < tr.findIdx (fun e => e = MigEffect.removeLegacyMeta)

/-- A concrete legacy unversioned object about to be migrated. -/
def legacyDemo : ObjState :=
  { index := [],
    legacyMeta := some { data_dir := "dd", size := 2, etag := "e", mod_time := 7,
                         version_id := none, is_delete_marker := false },
    legacyData := some [104, 105],
    nullMeta := none,
    nullData := none }

/-- The migrated meta: the legacy meta with version id "null" and the delete-marker
flag cleared (xl/storage.rs lines 1291-1293). -/
def migratedMeta (legacy : XlMetaLite) : XlMetaLite :=
  { legacy with version_id := some "null", is_delete_marker := false }

/-- The index entry produced by migrating a legacy meta. -/
def migratedEntry (legacy : XlMetaLite) : VIndex.VersionIndexEntry :=
  { version_id := "null", is_delete_marker := false, last_modified := legacy.mod_time,
    etag := some legacy.etag, size := legacy.size }

end Migrate

namespace Heal

/-- One per-disk metadata observation (healing/heal.rs lines 66-73,
`MetaObservation`): the parsed meta (abstracted to a type parameter `M`, since the
election only moves metas around) and its signature string.  The `state` and `error`
fields do not influence the election and are omitted. -/
structure MetaObservation (M : Type) where
  disk_index : Nat
  meta : Option M
  meta_signature : Option String
deriving DecidableEq

/-- One insertion into the signature table: `by_signature.entry(sig).or_insert((0,
meta)); entry.0 += 1` (heal.rs lines 345-352) — an existing signature has its count
bumped keeping the first-seen meta; a new signature starts at count 1. -/
def sigInsert {M : Type} (acc : List (String × Nat × M)) (sig : String) (meta : M) :
    List (String × Nat × M) :=
  match acc with
  | [] => [(sig, 1, meta)]
  | (s, c, m) :: rest =>
    if s = sig then (s, c + 1, m) :: rest else (s, c, m) :: sigInsert rest sig meta

/-- The signature table built from the observations: only observations carrying both
a signature and a parsed meta contribute (heal.rs lines 345-352).  The Rust `HashMap`
is an association list keyed by signature. -/
def bucketBySig {M : Type} (obs : List (MetaObservation M)) : List (String × Nat × M) :=
  obs.foldl
    (fun acc o =>
      match o.meta_signature, o.meta with
      | some sig, some m => sigInsert acc sig m
      | _, _ => acc)
    []

/-- Lookup in the signature table. -/
def sigLookup {M : Type} (table : List (String × Nat × M)) (sig : String) :
    Option (Nat × M) :=
  match table with
  | [] => none
  | (s, c, m) :: rest => if s = sig then some (c, m) else sigLookup rest sig

/-- One iteration of the selection loop (heal.rs lines 354-362): keep the current
candidate unless the visited signature has a strictly greater count. -/
def selectStep {M : Type} (table : List (String × Nat × M))
    (sel : Option (String × Nat × M)) (sig : String) : Option (String × Nat × M) :=
  match sigLookup table sig with
  | none => sel
  | some (c, m) =>
    match sel with
    | some (s0, c0, m0) => if c ≤ c0 then some (s0, c0, m0) else some (sig, c, m)
    | none => some (sig, c, m)

/-- The selection loop over the table in the hash map's iteration order, which the
Rust `HashMap` randomises per instance; the order is therefore an explicit parameter
here. -/
def selectGo {M : Type} (table : List (String × Nat × M)) :
    List String → Option (String × Nat × M) → Option (String × Nat × M)
  | [], sel => sel
  | sig :: rest, sel => selectGo table rest (selectStep table sel sig)

/-- `HealEngine::select_canonical_meta` (heal.rs lines 339-376) with the data-shard
quorum `d` and the hash-map iteration order made explicit: build the signature table,
pick a maximal-count signature in iteration order, and require its count to reach `d`.
The Rust code returns `(meta, signature, count)`. -/
def selectCanonicalMeta {M : Type} (d : Nat) (obs : List (MetaObservation M))
    (order : List String) : Except MaxioError (M × String × Nat) :=
  match selectGo (bucketBySig obs) order none with
  | none => Except.error (MaxioError.InternalError "missing metadata quorum for healing")
  | some (sig, c, m) =>
    if c < d then
      Except.error (MaxioError.InternalError "metadata read quorum not met")
    else
      Except.ok (m, sig, c)

/-- The count a signature holds in a table, zero when absent. -/
def lookCount {M : Type} (acc : List (String × Nat × M)) (sig : String) : Nat :=
  match sigLookup acc sig with
  | some (c, _) => c
  | none => 0

/-- The number of observations contributing signature `sig` to the table. -/
def countSig {M : Type} (obs : List (MetaObservation M)) (sig : String) : Nat :=
  obs.countP (fun o => o.meta_signature = some sig ∧ o.meta.isSome)

/-- The demonstration observations: two disks with two distinct signatures, a count
tie at one each. -/
def obsDemo : List (MetaObservation Nat) :=
  [{ disk_index := 0, meta := some 10, meta_signature := some "A" },
   { disk_index := 1, meta := some 20, meta_signature := some "B" }]

end Heal

namespace Dsync

/-- `NetLocker` RPC results (dsync/locker.rs, `LockResult`); transport errors and
timeouts collapse to `Failed` in `acquire` (client.rs lines 103-107). -/
inductive LockResult where
  | Success
  | NotAcquired
  | LockNotFound
  | Failed
deriving DecidableEq

/-- `AcquireOutcome` (dsync/client.rs lines 15-23). -/
structure AcquireOutcome where
  granted : List Bool
  locks_acquired : Nat
  failures : Nat
  quorum : Nat
  tolerance : Nat
  succeeded : Bool
deriving DecidableEq

/-- `DsyncClient::tolerance` (client.rs lines 47-49): `total / 2`. -/
def dsyncTolerance (total : Nat) : Nat := total / 2

/-- `DsyncClient::quorum` (client.rs lines 51-65): `total - tolerance`, bumped by one
for a write lock when it would equal the tolerance (which happens exactly for even
`total`), capped at `total`. -/
def dsyncQuorum (total : Nat) (write_lock : Bool) : Nat :=
  if total = 0 then 0
  else
    let tolerance := total / 2
    let q0 := total - tolerance
    let q1 := if write_lock ∧ q0 = tolerance then q0 + 1 else q0
    min q1 total

/-- The write-lock quorum formula asserted by the claim: `total - tolerance + 1`. -/
def specWriteQuorum (total : Nat) : Nat := total - total / 2 + 1

/-- `usize::clamp`. -/
def natClamp (x lo hi : Nat) : Nat := max lo (min x hi)

/-- The response-collection loop of `DsyncClient::acquire` (client.rs lines 112-136)
over the per-locker outcomes in arrival order: count a grant or a failure, break as
soon as the success condition `locks_acquired ≥ quorum ∧ failures ≤ tolerance` holds,
or as soon as success has become impossible
(`locks_acquired + remaining < quorum ∨ failures > tolerance`). -/
def acquireGo (q t : Nat) :
    List (Nat × LockResult) → Nat → Nat → Nat → List Bool → Nat × Nat × List Bool
  | [], _, la, f, g => (la, f, g)
  | (i, r) :: rest, remaining, la, f, g =>
    let remaining2 := remaining - 1
    let la2 := if r = LockResult.Success then la + 1 else la
    let f2 := if r = LockResult.Success then f else f + 1
    let g2 := if r = LockResult.Success then g.set i true else g
    if q ≤ la2 ∧ f2 ≤ t then (la2, f2, g2)
    else if la2 + remaining2 < q ∨ t < f2 then (la2, f2, g2)
    else acquireGo q t rest remaining2 la2 f2 g2

/-- `DsyncClient::acquire` (client.rs lines 75-148) as a function of the arrival-order
list of `(locker index, outcome)` replies: clamp the requested quorum, handle the
zero-locker case, run the collection loop with `remaining = total`, and report
`succeeded = locks_acquired ≥ quorum ∧ failures ≤ tolerance` on the final counters. -/
def acquire (total argsQuorum : Nat) (results : List (Nat × LockResult)) :
    AcquireOutcome :=
  let tolerance := dsyncTolerance total
  let quorum := natClamp argsQuorum 1 (max total 1)
  if total = 0 then
    { granted := List.replicate total false, locks_acquired := 0, failures := 1,
      quorum := quorum, tolerance := tolerance, succeeded := false }
  else
    let out := acquireGo quorum tolerance results total 0 0 (List.replicate total false)
    { granted := out.2.2, locks_acquired := out.1, failures := out.2.1,
      quorum := quorum, tolerance := tolerance,
      succeeded := decide (quorum ≤ out.1 ∧ out.2.1 ≤ tolerance) }

/-- Number of granting lockers in a reply list. -/
def countSuccess (results : List (Nat × LockResult)) : Nat :=
  results.countP (fun p => p.2 = LockResult.Success)

/-- Number of non-granting replies (NotAcquired, LockNotFound, Failed, timeouts). -/
def countNotSuccess (results : List (Nat × LockResult)) : Nat :=
  results.countP (fun p => ¬ p.2 = LockResult.Success)

/-- The successful 5-locker scenario of spec §8: three grants, two failures. -/
def results5 : List (Nat × LockResult) :=
  [(0, LockResult.Success), (1, LockResult.Success), (2, LockResult.Success),
   (3, LockResult.Failed), (4, LockResult.Failed)]

end Dsync

namespace Erasure

/-- `ErasureConfig` (erasure/mod.rs lines 12-17). -/
structure ErasureConfig where
  data_shards : Nat
  parity_shards : Nat
  block_size : Nat
deriving DecidableEq

/-- `ErasureConfig::total_shards` (erasure/mod.rs lines 30-32). -/
def ErasureConfig.total_shards (cfg : ErasureConfig) : Nat :=
  cfg.data_shards + cfg.parity_shards

/-- `validate_config` (erasure/mod.rs lines 164-181). -/
def validateConfig (cfg : ErasureConfig) : Except MaxioError Unit :=
  if cfg.data_shards = 0 then
    Except.error (MaxioError.InvalidArgument "data_shards must be greater than zero")
  else if cfg.parity_shards = 0 then
    Except.error (MaxioError.InvalidArgument "parity_shards must be greater than zero")
  else if cfg.block_size = 0 then
    Except.error (MaxioError.InvalidArgument "block_size must be greater than zero")
  else
    Except.ok ()

/-- `ErasureConfig::shard_size` without its validation step (erasure/mod.rs lines
34-41): `ceil(block_size / data_shards)`, rounded up to the next even number. -/
def shardSizeRaw (cfg : ErasureConfig) : Nat :=
  let s := (cfg.block_size + cfg.data_shards - 1) / cfg.data_shards
  if s % 2 = 1 then s + 1 else s

/-- `encode_block` (erasure/mod.rs lines 53-89) over an abstract symbol type `β` with
zero element `z`.  The `reed_solomon_simd` encoder is the parameter `E`: given the
config, the shard size and the `data_shards` original shards it yields recovery shard
`k`; `rsParity` below instantiates it with polynomial-standard Reed-Solomon as the
spec describes the library.  The payload is the data padded with zeroes to
`shard_size * data_shards`; the result is the `data_shards` payload slices followed by
the `parity_shards` recovery shards. -/
def encodeBlock {β : Type} (z : β)
    (E : ErasureConfig → Nat → List (List β) → Nat → List β)
    (data : List β) (cfg : ErasureConfig) : Except MaxioError (List (List β)) :=
  match validateConfig cfg with
  | Except.error e => Except.error e
  | Except.ok _ =>
    if cfg.block_size < data.length then
      Except.error (MaxioError.InvalidArgument "block size exceeds configured block_size")
    else
      let s := shardSizeRaw cfg
      let payload := data ++ List.replicate (cfg.data_shards * s - data.length) z
      let dataShards := (List.range cfg.data_shards).map
        (fun idx => (payload.drop (idx * s)).take s)
      let parityShards := (List.range cfg.parity_shards).map
        (fun k => E cfg s dataShards k)
      Except.ok (dataShards ++ parityShards)

/-- `decode_block` (erasure/mod.rs lines 91-162) over an abstract symbol type.  The
`reed_solomon_simd` decoder is the parameter `R`: given the config, shard size, the
shard array and a missing original index it restores that original shard (the library
guarantees every missing original is restored once at least `data_shards` shards are
present, which the code has already checked).  Checks mirror the source: shard count,
availability quorum, and exact shard sizes of every present shard (the source reports
the first offending index in the message; the message here is the constant prefix).
The result is the concatenation of the original shards, stored ones taken verbatim. -/
def decodeBlock {β : Type}
    (R : ErasureConfig → Nat → List (Option (List β)) → Nat → List β)
    (shards : List (Option (List β))) (cfg : ErasureConfig) :
    Except MaxioError (List β) :=
  match validateConfig cfg with
  | Except.error e => Except.error e
  | Except.ok _ =>
    if shards.length ≠ cfg.total_shards then
      Except.error (MaxioError.InvalidArgument "invalid shard count")
    else
      let s := shardSizeRaw cfg
      let available := (shards.filter Option.isSome).length
      if available < cfg.data_shards then
        Except.error (MaxioError.InvalidArgument "insufficient shards")
      else if shards.any (fun sh =>
          match sh with
          | some bytes => bytes.length != s
          | none => false) then
        Except.error (MaxioError.InvalidArgument "invalid shard size")
      else
        let originals := (List.range cfg.data_shards).map
          (fun idx =>
            match shards.getD idx none with
            | some bytes => bytes
            | none => R cfg s shards idx)
        Except.ok originals.flatten

/-- The erasure block of `xl.meta` as stored by the erasure engine
(erasure/mod.rs lines 44-51, `ErasureInfo`), with the checksum strings abstracted to
a type `χ` with decidable equality (the code stores SHA-256 hex strings and only ever
compares them for equality).  `total_size` mirrors the non-negative `i64`. -/
structure ErasureInfoM (χ : Type) where
  data_shards : Nat
  parity_shards : Nat
  block_size : Nat
  total_size : Nat
  block_checksums : List χ
deriving DecidableEq

/-- The message of the bitrot error for one block
(objects.rs lines 410-414: `"bitrot detected in block <i>"`). -/
def bitrotMsg (i : Nat) : String := "bitrot detected in block " ++ toString i

/-- The `block_idx`-th block of a payload, as sliced by `put_object`
(objects.rs lines 272-279): empty data yields the single empty block. -/
def blockOf {β : Type} (data : List β) (b i : Nat) : List β :=
  if data.length = 0 then [] else (data.drop (i * b)).take b

/-- Block count used by `put_object` (objects.rs lines 265-269): one block for empty
data, else `ceil(len / block_size)`. -/
def blockCountOf (len b : Nat) : Nat :=
  if len = 0 then 1 else (len + b - 1) / b

/-- The per-block SHA-256 checksums recorded by `put_object` (objects.rs lines
272-282), with the digest abstracted to `h`. -/
def putBlockChecksums {β χ : Type} (h : List β → χ) (data : List β)
    (cfg : ErasureConfig) : List χ :=
  (List.range (blockCountOf data.length cfg.block_size)).map
    (fun i => h (blockOf data cfg.block_size i))

/-- The erasure block of the `xl.meta` that `put_object` stores for `data`
(objects.rs lines 308-314). -/
def metaOfPut {β χ : Type} (h : List β → χ) (data : List β) (cfg : ErasureConfig) :
    ErasureInfoM χ :=
  { data_shards := cfg.data_shards, parity_shards := cfg.parity_shards,
    block_size := cfg.block_size, total_size := data.length,
    block_checksums := putBlockChecksums h data cfg }

/-- The per-block body of `get_object` (objects.rs lines 366-418), processing blocks
`i, i+1, …` with `n` blocks left: gather the `d+p` shard files of block `i` (read
failures are `none`), require at least `data_shards` present, decode, bound-check
against the expected block size, truncate, compare the digest of the truncated block
against `block_checksums[i]` (skipping the check only when the index is absent), and
append.  A mismatch is the bitrot error; any error aborts the remaining blocks. -/
def getLoop {β χ : Type} [DecidableEq χ]
    (R : ErasureConfig → Nat → List (Option (List β)) → Nat → List β)
    (h : List β → χ) (meta : ErasureInfoM χ) (files : Nat → Nat → Option (List β))
    (cfg : ErasureConfig) : Nat → Nat → Except MaxioError (List β)
  | _, 0 => Except.ok []
  | i, n + 1 =>
    let shards := (List.range cfg.total_shards).map (fun j => files i j)
    let available := (shards.filter Option.isSome).length
    if available < cfg.data_shards then
      Except.error (MaxioError.InternalError ("insufficient shards for block " ++ toString i))
    else
      match decodeBlock R shards cfg with
      | Except.error e => Except.error e
      | Except.ok decoded =>
        let expected := min cfg.block_size (meta.total_size - i * cfg.block_size)
        if decoded.length < expected then
          Except.error
            (MaxioError.InternalError ("decoded block too short: block " ++ toString i))
        else
          let block := decoded.take expected
          match meta.block_checksums[i]? with
          | some expectedSum =>
            if h block = expectedSum then
              match getLoop R h meta files cfg (i + 1) n with
              | Except.error e => Except.error e
              | Except.ok rest => Except.ok (block ++ rest)
            else
              Except.error (MaxioError.InternalError (bitrotMsg i))
          | none =>
            match getLoop R h meta files cfg (i + 1) n with
            | Except.error e => Except.error e
            | Except.ok rest => Except.ok (block ++ rest)

/-- The data path of `ErasureObjectLayer::get_object` (objects.rs lines 339-425),
from the stored `xl.meta` erasure block and the on-disk shard files
(`files block_idx shard_idx` is the content of `<key>/block_<i>/part.1` on disk `j`,
`none` when unreadable): empty objects return no bytes; the block count comes from
`block_checksums` when present, else from `ceil(total_size / block_size)`; the output
is truncated to `total_size` when longer.  The `ObjectInfo` component of the result is
a pure projection of the meta and is omitted. -/
def getObject {β χ : Type} [DecidableEq χ]
    (R : ErasureConfig → Nat → List (Option (List β)) → Nat → List β)
    (h : List β → χ) (meta : ErasureInfoM χ) (files : Nat → Nat → Option (List β)) :
    Except MaxioError (List β) :=
  if meta.total_size = 0 then Except.ok []
  else
    let count := if meta.block_checksums.isEmpty then
        (meta.total_size + meta.block_size - 1) / meta.block_size
      else meta.block_checksums.length
    let cfg : ErasureConfig :=
      { data_shards := meta.data_shards, parity_shards := meta.parity_shards,
        block_size := meta.block_size }
    match getLoop R h meta files cfg 0 count with
    | Except.error e => Except.error e
    | Except.ok out =>
      Except.ok (if meta.total_size < out.length then out.take meta.total_size else out)

/-- Evaluation at `x` of the Lagrange interpolation polynomial through the `n` points
`(v i, r i)`, written as the classical finite sum-product formula.  This is the
computable model of the polynomial-standard Reed-Solomon arithmetic provided by the
external `reed_solomon_simd` crate used by erasure/mod.rs: data symbols are values of
a polynomial of degree `< data_shards` at fixed nodes and parity symbols are further
evaluations of the same polynomial. -/
def lagEval {F : Type} [Field F] (n : Nat) (v r : Nat → F) (x : F) : F :=
  ∑ i ∈ Finset.range n, r i * ∏ j ∈ (Finset.range n).erase i, (x - v j) / (v i - v j)

/-- The Reed-Solomon parity generator plugged into `encode_block` (erasure/mod.rs
lines 78-84, `ReedSolomonEncoder::encode`): parity shard `k` carries, at each byte
position `t`, the evaluation at node `α (data_shards + k)` of the degree
`< data_shards` polynomial through the data symbols at position `t`. -/
def rsParity {F : Type} [Field F] (α : Nat → F) (cfg : ErasureConfig) (s : Nat)
    (dataShards : List (List F)) (k : Nat) : List F :=
  (List.range s).map (fun t =>
    lagEval cfg.data_shards α (fun i => (dataShards.getD i []).getD t 0)
      (α (cfg.data_shards + k)))

/-- Indices of the present shards, in increasing order. -/
def availIndices {γ : Type} (shards : List (Option γ)) : List Nat :=
  (List.range shards.length).filter (fun i => (shards.getD i none).isSome)

/-- The Reed-Solomon restorer plugged into `decode_block` (erasure/mod.rs lines
138-155, `ReedSolomonDecoder::decode`): a missing original shard `idx` is recovered
by interpolating, at each byte position, through the first `data_shards` present
shards and evaluating at node `α idx`. -/
def rsRecover {F : Type} [Field F] (α : Nat → F) (cfg : ErasureConfig) (s : Nat)
    (shards : List (Option (List F))) (idx : Nat) : List F :=
  (List.range s).map (fun t =>
    lagEval cfg.data_shards
      (fun i2 => α (((availIndices shards).take cfg.data_shards).getD i2 0))
      (fun i2 => ((shards.getD
          (((availIndices shards).take cfg.data_shards).getD i2 0) none).getD []).getD t 0)
      (α idx))

end Erasure

/-- Demonstration erasure configuration for the codec round-trip: two data shards,
one parity shard, block size two. -/
def rsDemoCfg : Erasure.ErasureConfig :=
  { data_shards := 2, parity_shards := 1, block_size := 2 }

/-- Demonstration availability mask: shard 0 (a data shard) is lost, shards 1 and 2
are present. -/
def rsDemoMask (i : Nat) : Bool := decide (0 < i)

/-- Demonstration Reed-Solomon node map over the field with five elements. -/
def rsDemoAlpha (n : Nat) : ZMod 5 := (n : ZMod 5)

instance rsFactPrimeFive : Fact (Nat.Prime 5) := ⟨by norm_num⟩

end Maxio

namespace Maxio

/-- C10: marking an object with an empty targets list pending yields an empty
per-target map, and `get_overall_status` then reports `Completed` (not `Pending`),
because the all-targets-completed check is vacuously true over the empty map. -/
theorem replication_empty_targets_completed
    (st : Repl.ReplicationState) (info : Repl.ReplicateObjectInfo)
    (hempty : info.targets = []) :
    Repl.getOverallStatus (Repl.markTargetsPending st info)
        info.bucket info.object info.version_id
      = some Repl.ReplicationStatus.Completed := by
  unfold Repl.getOverallStatus Repl.getObjectState Repl.markTargetsPending
  rw [hempty]
  have hkey : Repl.mapLookup
      (Repl.mapInsert st.objects
        (Repl.objectKey info.bucket info.object info.version_id)
        { targets := [] })
      (Repl.objectKey info.bucket info.object info.version_id)
      = some { targets := ([] : List (String × Repl.StatusType)) } := by
    generalize st.objects = m
    induction m with
    | nil => simp [Repl.mapInsert, Repl.mapLookup]
    | cons hd tl ih =>
      by_cases hc : hd.1 = Repl.objectKey info.bucket info.object info.version_id <;>
        simp [Repl.mapInsert, Repl.mapLookup, hc, ih]
  simp only [List.foldl]
  rw [hkey]
  simp [List.all]

/-- Concrete instantiation of the C10 theorem: a tracked object with no targets
reports overall status `Completed`. -/
theorem replication_empty_targets_completed_witness :
    Repl.getOverallStatus
      (Repl.markTargetsPending { objects := [] }
        { bucket := "b", object := "o", version_id := none, targets := [] })
      "b" "o" none = some Repl.ReplicationStatus.Completed :=
  replication_empty_targets_completed { objects := [] }
    { bucket := "b", object := "o", version_id := none, targets := [] } rfl

/-- C5: evaluation of the code at the failing input.  `make_bucket "b"` on an empty
root succeeds and leaves a bucket holding no objects, but whose directory contains the
`.versioning.json` file written by `make_bucket` itself; the immediately following
`delete_bucket "b"` therefore fails with `InvalidArgument "bucket is not empty: b"`,
even though the bucket holds no objects. -/
theorem delete_fresh_bucket_fails :
    Xl.makeBucket { buckets := [] } "b" = Except.ok Xl.freshBucketRoot
    ∧ (Xl.rootLookup Xl.freshBucketRoot "b").map Xl.BucketDir.objects = some []
    ∧ Xl.deleteBucket Xl.freshBucketRoot "b"
        = Except.error (MaxioError.InvalidArgument "bucket is not empty: b") := by
  refine ⟨?_, ?_, ?_⟩ <;> decide

/-- C6 counterexample: the storage-layer `set_bucket_versioning` enforces no
transition restriction.  Starting from a bucket whose state is `Enabled`, a
`set_bucket_versioning(bucket, Unversioned)` call succeeds and the stored state reads
back as `Unversioned`, refuting the claim that the state can never return to
`Unversioned` once `Enabled`. -/
theorem set_versioning_back_to_unversioned :
    ∃ fs2 : Xl.XlRoot,
      Xl.setBucketVersioning
        { buckets := [("b", { objects := [], versioningFile := some VersioningState.Enabled })] }
        "b" VersioningState.Unversioned = Except.ok fs2
      ∧ Xl.readBucketVersioning fs2 "b" = Except.ok VersioningState.Unversioned := by
  refine ⟨{ buckets := [("b", { objects := [], versioningFile := some VersioningState.Unversioned })] }, ?_, ?_⟩ <;> decide

/-- C6 (amended): the storage layer itself stores whatever state it is given, but the
S3 handler `put_bucket_versioning` only ever writes `Enabled` or `Suspended`, because
`parse_status` never produces `Unversioned`.  Hence after any sequence of handler
calls following a transition to a non-`Unversioned` state, the stored state is never
`Unversioned`. -/
theorem handler_versioning_never_unversioned :
    (∀ (status : Option String) (st : VersioningState),
        Xl.parseStatus status = Except.ok st → st ≠ VersioningState.Unversioned)
    ∧ ∀ (inputs : List (Option String)) (s0 : VersioningState),
        s0 ≠ VersioningState.Unversioned →
        inputs.foldl Xl.handlerStep s0 ≠ VersioningState.Unversioned := by
  constructor
  · intro status st hok
    match status with
    | none => simp [Xl.parseStatus] at hok
    | some s =>
      by_cases h1 : s = "Enabled"
      · simp [Xl.parseStatus, h1] at hok; simp [← hok]
      · by_cases h2 : s = "Suspended"
        · simp [Xl.parseStatus, h1, h2] at hok; simp [← hok]
        · simp [Xl.parseStatus, h1, h2] at hok
  · intro inputs
    induction inputs with
    | nil => intro s0 h; simpa using h
    | cons hd tl ih =>
      intro s0 h
      simp only [List.foldl_cons]
      apply ih
      unfold Xl.handlerStep
      match hp : Xl.parseStatus hd with
      | Except.ok st =>
        intro hcontra
        have : st ≠ VersioningState.Unversioned := by
          match hd with
          | none => simp [Xl.parseStatus] at hp
          | some s =>
            by_cases h1 : s = "Enabled"
            · simp [Xl.parseStatus, h1] at hp; simp [← hp]
            · by_cases h2 : s = "Suspended"
              · simp [Xl.parseStatus, h1, h2] at hp; simp [← hp]
              · simp [Xl.parseStatus, h1, h2] at hp
        exact this hcontra
      | Except.error e => exact h

/-- Concrete instantiation of the amended C6 theorem: starting from `Enabled`, a
handler sequence of a suspend, a malformed body, and an enable never reaches
`Unversioned`. -/
theorem handler_versioning_never_unversioned_witness :
    [some "Suspended", some "garbage", some "Enabled", none].foldl
        Xl.handlerStep VersioningState.Enabled ≠ VersioningState.Unversioned :=
  handler_versioning_never_unversioned.2 _ VersioningState.Enabled (by decide)

namespace VIndex

/-- Head of the folded index equals the entry of the last operation, for any starting
index. -/
theorem foldl_head (ops : List VersionedOp) :
    ∀ start : List VersionIndexEntry,
      (ops.foldl stepEnabled start).head? =
        match ops.getLast? with
        | some op => some (entryOf op)
        | none => start.head? := by
  induction ops with
  | nil => intro start; rfl
  | cons a l ih =>
    intro start
    match l with
    | [] => simp [List.foldl, stepEnabled]
    | b :: m =>
      rw [List.foldl_cons, ih (stepEnabled start a), List.getLast?_cons_cons]
      rcases hlast : (b :: m).getLast? with _ | x
      · simp at hlast
      · rfl

/-- The marker well-formedness predicate is preserved along the fold. -/
theorem foldl_markers (ops : List VersionedOp) :
    ∀ start : List VersionIndexEntry,
      (∀ e ∈ start, e.is_delete_marker = true → e.size = 0 ∧ e.etag = none) →
      ∀ e ∈ ops.foldl stepEnabled start,
        e.is_delete_marker = true → e.size = 0 ∧ e.etag = none := by
  induction ops with
  | nil => intro start h; simpa using h
  | cons a l ih =>
    intro start h
    rw [List.foldl_cons]
    apply ih
    intro e he
    rcases List.mem_cons.mp he with hhd | htl
    · subst hhd
      match a with
      | VersionedOp.put vid etag size t => intro hfalse; simp [entryOf] at hfalse
      | VersionedOp.deleteMarker vid t => intro _; exact ⟨rfl, rfl⟩
    · exact h e htl

end VIndex

/-- C4: after any sequence of successful `put_object` / `delete_object` calls on one
object under `Enabled` versioning, the `.versions.json` entry at position 0 is the one
written by the most recent call, and every delete-marker entry in the index carries
`size = 0` and `etag = null`. -/
theorem versions_index_newest_first (ops : List VIndex.VersionedOp) :
    (VIndex.applyOps ops).head? =
      (match ops.getLast? with
       | some op => some (VIndex.entryOf op)
       | none => none)
    ∧ ∀ e ∈ VIndex.applyOps ops,
        e.is_delete_marker = true → e.size = 0 ∧ e.etag = none := by
  constructor
  · have h := VIndex.foldl_head ops []
    simpa using h
  · exact VIndex.foldl_markers ops [] (by intro e he; simp at he)

/-- Concrete instantiation of the C4 theorem: after a put followed by a delete, the
head of the index is the delete marker, and that marker has `size = 0`, `etag = null`.
-/
theorem versions_index_newest_first_witness :
    (VIndex.applyOps
        [VIndex.VersionedOp.put "v1" "e1" 3 0, VIndex.VersionedOp.deleteMarker "d1" 1]).head?
      = some (VIndex.entryOf (VIndex.VersionedOp.deleteMarker "d1" 1))
    ∧ ((VIndex.entryOf (VIndex.VersionedOp.deleteMarker "d1" 1)).size = 0
        ∧ (VIndex.entryOf (VIndex.VersionedOp.deleteMarker "d1" 1)).etag = none) :=
  ⟨(versions_index_newest_first _).1,
   (versions_index_newest_first
      [VIndex.VersionedOp.put "v1" "e1" 3 0, VIndex.VersionedOp.deleteMarker "d1" 1]).2
      _ (by decide) (by decide)⟩

namespace Mux

theorem muxInv_fresh {k i : Nat} (hik : i < k) (hk : k < u32Card) :
    (1 + k) % u32Card ≠ (1 + i) % u32Card := by
  unfold u32Card at *
  omega

theorem muxInv_run (events : List MuxEvent) :
    ∀ (st : MuxClientState) (k : Nat), MuxInv st k →
      k + countAllocs events ≤ u32Card →
      MuxInv (events.foldl muxStep st) (k + countAllocs events) := by
  induction events with
  | nil => intro st k h _; simpa [countAllocs] using h
  | cons e l ih =>
    intro st k h hbound
    cases e with
    | alloc =>
      have hcount : countAllocs (MuxEvent.alloc :: l) = countAllocs l + 1 := by
        simp [countAllocs, List.countP_cons]
      rw [hcount] at hbound ⊢
      have hk : k < u32Card := by omega
      have hstep : MuxInv (muxStep st MuxEvent.alloc) (k + 1) := by
        obtain ⟨hseq, hnodup, hmem⟩ := h
        refine ⟨?_, ?_, ?_⟩
        · show ((st.nextSeq + 1) % u32Card) = (1 + (k + 1)) % u32Card
          rw [hseq]
          unfold u32Card
          omega
        · show (st.nextSeq :: st.pending).Nodup
          refine List.nodup_cons.mpr ⟨?_, hnodup⟩
          intro hcontra
          obtain ⟨i, hik, hival⟩ := hmem st.nextSeq hcontra
          have heq : (1 + k) % u32Card = (1 + i) % u32Card := by
            rw [← hseq]; exact hival
          exact muxInv_fresh hik hk heq
        · intro s hs
          rcases List.mem_cons.mp hs with hhd | htl
          · exact ⟨k, Nat.lt_succ_self k, hhd.trans hseq⟩
          · obtain ⟨i, hik, hival⟩ := hmem s htl
            exact ⟨i, Nat.lt_succ_of_lt hik, hival⟩
      have := ih (muxStep st MuxEvent.alloc) (k + 1) hstep (by omega)
      rw [List.foldl_cons]
      have hfix : k + (countAllocs l + 1) = k + 1 + countAllocs l := by omega
      rw [hfix]
      exact this
    | complete s =>
      have hcount : countAllocs (MuxEvent.complete s :: l) = countAllocs l := by
        simp [countAllocs, List.countP_cons]
      rw [hcount] at hbound ⊢
      have hstep : MuxInv (muxStep st (MuxEvent.complete s)) k := by
        obtain ⟨hseq, hnodup, hmem⟩ := h
        refine ⟨hseq, hnodup.erase s, ?_⟩
        intro x hx
        exact hmem x (List.mem_of_mem_erase hx)
      rw [List.foldl_cons]
      exact ih _ k hstep hbound

end Mux

/-- C9: within one `MuxClient`, as long as fewer than `2^32` requests have been
issued (the `u32` counter width), no two outstanding requests share a `seq` and a
fresh request draws a seq not currently pending; a timed-out request returns
`RequestTimeout` carrying its seq with its pending-table entry removed; and the
request following one that drew seq `s` draws `(s + 1) mod 2^32`. -/
theorem mux_seq_unique_and_timeout (events : List Mux.MuxEvent)
    (hbound : Mux.countAllocs events ≤ Mux.u32Card) :
    (Mux.runMux events).pending.Nodup
    ∧ (Mux.countAllocs events < Mux.u32Card →
        (Mux.allocStep (Mux.runMux events)).1 ∉ (Mux.runMux events).pending)
    ∧ (∀ s, (Mux.timeoutStep (Mux.runMux events) s).1 = Mux.GridError.RequestTimeout s
        ∧ s ∉ ((Mux.timeoutStep (Mux.runMux events) s).2).pending)
    ∧ (∀ st : Mux.MuxClientState,
        (Mux.allocStep st).2.nextSeq = ((Mux.allocStep st).1 + 1) % Mux.u32Card) := by
  have hinv : Mux.MuxInv (Mux.runMux events) (Mux.countAllocs events) := by
    have h0 : Mux.MuxInv Mux.initState 0 := by
      refine ⟨?_, List.nodup_nil, ?_⟩
      · show (1 : Nat) = (1 + 0) % Mux.u32Card
        unfold Mux.u32Card; omega
      · intro s hs; simp [Mux.initState] at hs
    simpa using Mux.muxInv_run events Mux.initState 0 h0 (by simpa using hbound)
  obtain ⟨hseq, hnodup, hmem⟩ := hinv
  refine ⟨hnodup, ?_, ?_, ?_⟩
  · intro hlt hcontra
    obtain ⟨i, hik, hival⟩ := hmem _ hcontra
    have heq : (1 + Mux.countAllocs events) % Mux.u32Card = (1 + i) % Mux.u32Card := by
      rw [← hseq]; exact hival
    exact Mux.muxInv_fresh hik hlt heq
  · intro s
    refine ⟨rfl, ?_⟩
    intro hcontra
    have := (List.Nodup.mem_erase_iff hnodup).mp hcontra
    exact this.1 rfl
  · intro st; rfl

/-- Concrete instantiation of the C9 theorem: a history of two requests and one
completion keeps the pending seqs distinct, and a timeout for seq 2 removes it. -/
theorem mux_seq_unique_and_timeout_witness :
    (Mux.runMux [Mux.MuxEvent.alloc, Mux.MuxEvent.complete 1, Mux.MuxEvent.alloc]).pending.Nodup
    ∧ ((Mux.timeoutStep
          (Mux.runMux [Mux.MuxEvent.alloc, Mux.MuxEvent.complete 1, Mux.MuxEvent.alloc]) 2).1
        = Mux.GridError.RequestTimeout 2
      ∧ 2 ∉ ((Mux.timeoutStep
          (Mux.runMux [Mux.MuxEvent.alloc, Mux.MuxEvent.complete 1, Mux.MuxEvent.alloc]) 2).2).pending) :=
  ⟨(mux_seq_unique_and_timeout _ (by decide)).1,
   (mux_seq_unique_and_timeout
      [Mux.MuxEvent.alloc, Mux.MuxEvent.complete 1, Mux.MuxEvent.alloc] (by decide)).2.2.1 2⟩

/-- C7 counterexample: on a legacy unversioned object, `ensure_versions_index` issues
its effects as null subtree first, then the legacy deletions, then the
`.versions.json` write last — the index write does NOT precede the legacy deletions as
the claim states. -/
theorem migration_writes_index_after_deletes :
    (Migrate.ensureVersionsIndex "b" "k" Migrate.legacyDemo).2.1
      = [Migrate.MigEffect.createNullDir, Migrate.MigEffect.writeNullData,
         Migrate.MigEffect.writeNullMeta, Migrate.MigEffect.removeLegacyDataDir,
         Migrate.MigEffect.removeLegacyMeta, Migrate.MigEffect.writeVersionsIndexFile]
    ∧ ¬ Migrate.claimMigOrder (Migrate.ensureVersionsIndex "b" "k" Migrate.legacyDemo).2.1 := by
  constructor
  · decide
  · intro hcontra
    have h1 := hcontra.1
    revert h1
    decide

/-- C7 (amended): migrating a legacy unversioned object performs its effects in the
order (1) write the new "null" subtree (data, then meta) fully, (2) delete the legacy
data directory and the legacy `xl.meta`, (3) write `.versions.json` last; and the
migration is idempotent — a second call performs no effects and returns the same
single "null" entry. -/
theorem migration_order_and_idempotent
    (bucket key : String) (st : Migrate.ObjState) (legacy : Migrate.XlMetaLite)
    (bytes : List Nat)
    (hidx : st.index = []) (hmeta : st.legacyMeta = some legacy)
    (hdata : st.legacyData = some bytes) :
    Migrate.ensureVersionsIndex bucket key st
      = ({ index := [Migrate.migratedEntry legacy], legacyMeta := none,
           legacyData := none,
           nullMeta := some (Migrate.migratedMeta legacy),
           nullData := some bytes },
         [Migrate.MigEffect.createNullDir, Migrate.MigEffect.writeNullData,
          Migrate.MigEffect.writeNullMeta, Migrate.MigEffect.removeLegacyDataDir,
          Migrate.MigEffect.removeLegacyMeta, Migrate.MigEffect.writeVersionsIndexFile],
         Except.ok [Migrate.migratedEntry legacy])
    ∧ Migrate.ensureVersionsIndex bucket key
        (Migrate.ensureVersionsIndex bucket key st).1
      = ((Migrate.ensureVersionsIndex bucket key st).1, [],
         Except.ok [Migrate.migratedEntry legacy]) := by
  have hfirst : Migrate.ensureVersionsIndex bucket key st
      = ({ index := [Migrate.migratedEntry legacy], legacyMeta := none,
           legacyData := none,
           nullMeta := some (Migrate.migratedMeta legacy),
           nullData := some bytes },
         [Migrate.MigEffect.createNullDir, Migrate.MigEffect.writeNullData,
          Migrate.MigEffect.writeNullMeta, Migrate.MigEffect.removeLegacyDataDir,
          Migrate.MigEffect.removeLegacyMeta, Migrate.MigEffect.writeVersionsIndexFile],
         Except.ok [Migrate.migratedEntry legacy]) := by
    unfold Migrate.ensureVersionsIndex
    rw [hidx, hmeta, hdata]
    rfl
  refine ⟨hfirst, ?_⟩
  rw [hfirst]
  rfl

/-- Concrete instantiation of the amended C7 theorem on `legacyDemo`. -/
theorem migration_order_and_idempotent_witness :
    (Migrate.ensureVersionsIndex "b" "k" Migrate.legacyDemo).2.2
      = Except.ok [Migrate.migratedEntry
          { data_dir := "dd", size := 2, etag := "e", mod_time := 7,
            version_id := none, is_delete_marker := false }]
    ∧ Migrate.ensureVersionsIndex "b" "k"
        (Migrate.ensureVersionsIndex "b" "k" Migrate.legacyDemo).1
      = ((Migrate.ensureVersionsIndex "b" "k" Migrate.legacyDemo).1, [],
         Except.ok [Migrate.migratedEntry
          { data_dir := "dd", size := 2, etag := "e", mod_time := 7,
            version_id := none, is_delete_marker := false }]) :=
  have h := migration_order_and_idempotent "b" "k" Migrate.legacyDemo
      { data_dir := "dd", size := 2, etag := "e", mod_time := 7,
        version_id := none, is_delete_marker := false } [104, 105] rfl rfl rfl
  ⟨by rw [h.1], h.2⟩

namespace Heal

theorem lookCount_cons_eq {M : Type} (s : String) (c : Nat) (mm : M)
    (l : List (String × Nat × M)) : lookCount ((s, c, mm) :: l) s = c := by
  simp [lookCount, sigLookup]

theorem lookCount_cons_ne {M : Type} (s s2 : String) (c : Nat) (mm : M)
    (l : List (String × Nat × M)) (h : s ≠ s2) :
    lookCount ((s, c, mm) :: l) s2 = lookCount l s2 := by
  simp [lookCount, sigLookup, h]

theorem sigInsert_lookCount_self {M : Type} (acc : List (String × Nat × M))
    (sig : String) (m : M) :
    lookCount (sigInsert acc sig m) sig = lookCount acc sig + 1 := by
  induction acc with
  | nil => simp [sigInsert, lookCount, sigLookup]
  | cons hd tl ih =>
    obtain ⟨s, c, mm⟩ := hd
    by_cases h : s = sig
    · subst h
      have e1 : sigInsert ((s, c, mm) :: tl) s m = (s, c + 1, mm) :: tl := by
        simp [sigInsert]
      rw [e1, lookCount_cons_eq, lookCount_cons_eq]
    · have e1 : sigInsert ((s, c, mm) :: tl) sig m = (s, c, mm) :: sigInsert tl sig m := by
        simp [sigInsert, h]
      rw [e1, lookCount_cons_ne _ _ _ _ _ h, lookCount_cons_ne _ _ _ _ _ h]
      exact ih

theorem sigInsert_lookCount_other {M : Type} (acc : List (String × Nat × M))
    (sig s2 : String) (m : M) (hne : s2 ≠ sig) :
    lookCount (sigInsert acc sig m) s2 = lookCount acc s2 := by
  have hne2 : sig ≠ s2 := Ne.symm hne
  induction acc with
  | nil =>
    show lookCount [(sig, 1, m)] s2 = lookCount [] s2
    rw [lookCount_cons_ne _ _ _ _ _ hne2]
  | cons hd tl ih =>
    obtain ⟨s, c, mm⟩ := hd
    by_cases h : s = sig
    · subst h
      have e1 : sigInsert ((s, c, mm) :: tl) s m = (s, c + 1, mm) :: tl := by
        simp [sigInsert]
      rw [e1, lookCount_cons_ne _ _ _ _ _ hne2, lookCount_cons_ne _ _ _ _ _ hne2]
    · have e1 : sigInsert ((s, c, mm) :: tl) sig m = (s, c, mm) :: sigInsert tl sig m := by
        simp [sigInsert, h]
      rw [e1]
      by_cases h2 : s = s2
      · subst h2
        rw [lookCount_cons_eq, lookCount_cons_eq]
      · rw [lookCount_cons_ne _ _ _ _ _ h2, lookCount_cons_ne _ _ _ _ _ h2]
        exact ih

/-- Folding the observations adds exactly `countSig` to every signature's count. -/
theorem bucketBySig_count {M : Type} (obs : List (MetaObservation M)) :
    ∀ (acc : List (String × Nat × M)) (sig : String),
      lookCount
        (obs.foldl
          (fun acc o =>
            match o.meta_signature, o.meta with
            | some s, some m => sigInsert acc s m
            | _, _ => acc)
          acc) sig
        = lookCount acc sig + countSig obs sig := by
  induction obs with
  | nil => intro acc sig; simp [countSig]
  | cons o rest ih =>
    intro acc sig
    rw [List.foldl_cons]
    rcases hsig : o.meta_signature with _ | s
    · simp only [hsig]
      rw [ih]
      have hc : countSig (o :: rest) sig = countSig rest sig := by
        simp [countSig, List.countP_cons, hsig]
      omega
    · rcases hmeta : o.meta with _ | m
      · simp only [hsig, hmeta]
        rw [ih]
        have hc : countSig (o :: rest) sig = countSig rest sig := by
          simp [countSig, List.countP_cons, hsig, hmeta]
        omega
      · simp only [hsig, hmeta]
        rw [ih]
        by_cases h : s = sig
        · subst h
          rw [sigInsert_lookCount_self]
          have hc : countSig (o :: rest) s = countSig rest s + 1 := by
            simp [countSig, List.countP_cons, hsig, hmeta]
          omega
        · rw [sigInsert_lookCount_other _ _ _ _ (fun hc => h hc.symm)]
          have hc : countSig (o :: rest) sig = countSig rest sig := by
            simp [countSig, List.countP_cons, hsig, hmeta, h]
          omega

theorem sigLookup_some_mem {M : Type} (table : List (String × Nat × M))
    (sig : String) (c : Nat) (m : M) (h : sigLookup table sig = some (c, m)) :
    (sig, c, m) ∈ table := by
  induction table with
  | nil => simp [sigLookup] at h
  | cons hd tl ih =>
    obtain ⟨s, c0, m0⟩ := hd
    by_cases hs : s = sig
    · subst hs
      simp [sigLookup] at h
      simp [h]
    · simp only [sigLookup, if_neg hs] at h
      exact List.mem_cons_of_mem _ (ih h)

theorem mem_sigLookup {M : Type} (table : List (String × Nat × M))
    (sig : String) (c : Nat) (m : M) (hmem : (sig, c, m) ∈ table) :
    ∃ c2 m2, sigLookup table sig = some (c2, m2) := by
  induction table with
  | nil => simp at hmem
  | cons hd tl ih =>
    obtain ⟨s, c0, m0⟩ := hd
    by_cases hs : s = sig
    · subst hs
      exact ⟨c0, m0, by simp [sigLookup]⟩
    · rcases List.mem_cons.mp hmem with hhd | htl
      · exact absurd (congrArg Prod.fst hhd).symm hs
      · obtain ⟨c2, m2, hl⟩ := ih htl
        exact ⟨c2, m2, by simp only [sigLookup, if_neg hs]; exact hl⟩

/-- If the selection loop ends with no candidate, it started with none and every
visited signature was absent from the table. -/
theorem selectGo_none {M : Type} (table : List (String × Nat × M)) :
    ∀ (order : List String) (sel : Option (String × Nat × M)),
      selectGo table order sel = none →
      sel = none ∧ ∀ sig ∈ order, sigLookup table sig = none := by
  intro order
  induction order with
  | nil => intro sel h; exact ⟨h, by intro sig hs; simp at hs⟩
  | cons sig rest ih =>
    intro sel h
    rw [selectGo] at h
    obtain ⟨hstep, hrest⟩ := ih (selectStep table sel sig) h
    unfold selectStep at hstep
    rcases hlook : sigLookup table sig with _ | cm
    · rw [hlook] at hstep
      refine ⟨hstep, ?_⟩
      intro s hs
      rcases List.mem_cons.mp hs with hhd | htl
      · subst hhd; exact hlook
      · exact hrest s htl
    · obtain ⟨c, m⟩ := cm
      rw [hlook] at hstep
      exfalso
      rcases sel with _ | scm
      · simp at hstep
      · obtain ⟨s0, c0, m0⟩ := scm
        by_cases hc : c ≤ c0 <;> simp [hc] at hstep

/-- A candidate returned by the selection loop is either the starting candidate or an
entry of the table. -/
theorem selectGo_some_src {M : Type} (table : List (String × Nat × M)) :
    ∀ (order : List String) (sel : Option (String × Nat × M)) (s : String) (c : Nat)
      (m : M),
      selectGo table order sel = some (s, c, m) →
      sigLookup table s = some (c, m) ∨ sel = some (s, c, m) := by
  intro order
  induction order with
  | nil => intro sel s c m h; exact Or.inr h
  | cons sig rest ih =>
    intro sel s c m h
    rw [selectGo] at h
    rcases ih (selectStep table sel sig) s c m h with hl | hstep
    · exact Or.inl hl
    · unfold selectStep at hstep
      rcases hlook : sigLookup table sig with _ | cm
      · rw [hlook] at hstep; exact Or.inr hstep
      · obtain ⟨c2, m2⟩ := cm
        rw [hlook] at hstep
        rcases sel with _ | scm
        · simp at hstep
          obtain ⟨h1, h2, h3⟩ := hstep
          subst h1; subst h2; subst h3
          exact Or.inl hlook
        · obtain ⟨s0, c0, m0⟩ := scm
          by_cases hc : c2 ≤ c0
          · simp [hc] at hstep
            obtain ⟨h1, h2, h3⟩ := hstep
            subst h1; subst h2; subst h3
            exact Or.inr rfl
          · simp [hc] at hstep
            obtain ⟨h1, h2, h3⟩ := hstep
            subst h1; subst h2; subst h3
            exact Or.inl hlook

/-- The selection loop never decreases the candidate count. -/
theorem selectGo_ge_sel {M : Type} (table : List (String × Nat × M)) :
    ∀ (order : List String) (s0 : String) (c0 : Nat) (m0 : M),
      ∃ s c m, selectGo table order (some (s0, c0, m0)) = some (s, c, m) ∧ c0 ≤ c := by
  intro order
  induction order with
  | nil => intro s0 c0 m0; exact ⟨s0, c0, m0, rfl, Nat.le_refl c0⟩
  | cons sig rest ih =>
    intro s0 c0 m0
    rw [selectGo]
    unfold selectStep
    rcases hlook : sigLookup table sig with _ | cm
    · exact ih s0 c0 m0
    · obtain ⟨c2, m2⟩ := cm
      dsimp only
      by_cases hc : c2 ≤ c0
      · rw [if_pos hc]
        exact ih s0 c0 m0
      · rw [if_neg hc]
        obtain ⟨s, c, m, hgo, hge⟩ := ih sig c2 m2
        exact ⟨s, c, m, hgo, Nat.le_trans (Nat.le_of_lt (Nat.lt_of_not_le hc)) hge⟩

/-- Any signature visited by the loop and present in the table is dominated by the
final candidate count. -/
theorem selectGo_max {M : Type} (table : List (String × Nat × M)) :
    ∀ (order : List String) (sel : Option (String × Nat × M)) (sig2 : String)
      (c2 : Nat) (m2 : M),
      sig2 ∈ order → sigLookup table sig2 = some (c2, m2) →
      ∃ s c m, selectGo table order sel = some (s, c, m) ∧ c2 ≤ c := by
  intro order
  induction order with
  | nil => intro sel sig2 c2 m2 hmem; simp at hmem
  | cons sig rest ih =>
    intro sel sig2 c2 m2 hmem hlook2
    rcases List.mem_cons.mp hmem with hhd | htl
    · subst hhd
      rw [selectGo]
      unfold selectStep
      rw [hlook2]
      rcases sel with _ | scm
      · exact selectGo_ge_sel table rest sig2 c2 m2
      · obtain ⟨s0, c0, m0⟩ := scm
        dsimp only
        by_cases hc : c2 ≤ c0
        · rw [if_pos hc]
          obtain ⟨s, c, m, hgo, hge⟩ := selectGo_ge_sel table rest s0 c0 m0
          exact ⟨s, c, m, hgo, Nat.le_trans hc hge⟩
        · rw [if_neg hc]
          exact selectGo_ge_sel table rest sig2 c2 m2
    · rw [selectGo]
      exact ih (selectStep table sel sig) sig2 c2 m2 htl hlook2

/-- Inserting a signature extends the key list by that signature when new, and keeps
it unchanged otherwise. -/
theorem sigInsert_keys {M : Type} (acc : List (String × Nat × M)) (sig : String)
    (m : M) :
    (sigInsert acc sig m).map Prod.fst
      = if sig ∈ acc.map Prod.fst then acc.map Prod.fst
        else acc.map Prod.fst ++ [sig] := by
  induction acc with
  | nil => simp [sigInsert]
  | cons hd tl ih =>
    obtain ⟨s, c, mm⟩ := hd
    by_cases h : s = sig
    · subst h; simp [sigInsert]
    · simp only [sigInsert, if_neg h, List.map_cons]
      rw [ih]
      have hne : ¬ sig = s := fun hc => h hc.symm
      by_cases h2 : sig ∈ tl.map Prod.fst
      · simp [h2, hne]
      · simp [h2, hne]

/-- The signature table has pairwise-distinct keys. -/
theorem bucketBySig_keys_nodup {M : Type} (obs : List (MetaObservation M)) :
    ((bucketBySig obs).map Prod.fst).Nodup := by
  suffices h : ∀ acc : List (String × Nat × M), (acc.map Prod.fst).Nodup →
      ((obs.foldl
        (fun acc o =>
          match o.meta_signature, o.meta with
          | some s, some m => sigInsert acc s m
          | _, _ => acc)
        acc).map Prod.fst).Nodup by
    exact h [] (by simp)
  induction obs with
  | nil => intro acc hacc; simpa using hacc
  | cons o rest ih =>
    intro acc hacc
    rw [List.foldl_cons]
    rcases hsig : o.meta_signature with _ | s
    · simp only [hsig]
      exact ih acc hacc
    · rcases hmeta : o.meta with _ | m
      · simp only [hsig, hmeta]
        exact ih acc hacc
      · simp only [hsig, hmeta]
        apply ih
        rw [sigInsert_keys]
        by_cases h2 : s ∈ acc.map Prod.fst
        · simpa [h2] using hacc
        · simp only [if_neg h2]
          simpa [List.nodup_append, h2] using hacc

/-- With distinct keys, table membership determines the lookup result. -/
theorem mem_sigLookup_eq {M : Type} (table : List (String × Nat × M))
    (hkeys : (table.map Prod.fst).Nodup) (sig : String) (c : Nat) (m : M)
    (hmem : (sig, c, m) ∈ table) : sigLookup table sig = some (c, m) := by
  induction table with
  | nil => simp at hmem
  | cons hd tl ih =>
    obtain ⟨s, c0, m0⟩ := hd
    rw [List.map_cons, List.nodup_cons] at hkeys
    rcases List.mem_cons.mp hmem with hhd | htl
    · have h1 : sig = s := congrArg Prod.fst hhd
      have h2 : c = c0 := congrArg (fun p => p.2.1) hhd
      have h3 : m = m0 := congrArg (fun p => p.2.2) hhd
      subst h1; subst h2; subst h3
      simp [sigLookup]
    · by_cases hs : s = sig
      · subst hs
        exact absurd (List.mem_map.mpr ⟨(s, c, m), htl, rfl⟩) hkeys.1
      · simp only [sigLookup, if_neg hs]
        exact ih hkeys.2 htl

end Heal

/-- C8 counterexample: on identical observations with a signature-count tie, two
iteration orders of the signature table — both permutations of its key set, and the
Rust `HashMap` guarantees no particular one — elect different signatures, so the
election is not stable across calls on the same input. -/
theorem heal_election_tie_order_dependent :
    ((Heal.bucketBySig Heal.obsDemo).map Prod.fst) = ["A", "B"]
    ∧ ["A", "B"].Perm ((Heal.bucketBySig Heal.obsDemo).map Prod.fst)
    ∧ ["B", "A"].Perm ((Heal.bucketBySig Heal.obsDemo).map Prod.fst)
    ∧ Heal.selectCanonicalMeta 1 Heal.obsDemo ["A", "B"] = Except.ok (10, "A", 1)
    ∧ Heal.selectCanonicalMeta 1 Heal.obsDemo ["B", "A"] = Except.ok (20, "B", 1)
    ∧ Heal.selectCanonicalMeta 1 Heal.obsDemo ["A", "B"]
        ≠ Heal.selectCanonicalMeta 1 Heal.obsDemo ["B", "A"] := by
  refine ⟨by decide, ?_, ?_, by decide, by decide, by decide⟩
  · rw [show ((Heal.bucketBySig Heal.obsDemo).map Prod.fst) = ["A", "B"] from by decide]
  · rw [show ((Heal.bucketBySig Heal.obsDemo).map Prod.fst) = ["A", "B"] from by decide]
    exact List.Perm.swap "A" "B" []

/-- C8 (amended): for any iteration order covering the signature table's keys, the
election returns a signature whose count equals its number of occurrences and
dominates every other signature's count, and it fails with an `InternalError` exactly
when no signature reaches the data-shard quorum `d`; which signature wins a tie,
however, depends on the hash-map iteration order (see the counterexample), so
determinism holds only when the maximal count is unique. -/
theorem heal_election_quorum_and_max {M : Type} (d : Nat)
    (obs : List (Heal.MetaObservation M)) (order : List String)
    (hcover : ∀ p ∈ Heal.bucketBySig obs, p.1 ∈ order) :
    (∀ m sig c, Heal.selectCanonicalMeta d obs order = Except.ok (m, sig, c) →
      d ≤ c ∧ c = Heal.countSig obs sig
        ∧ ∀ p ∈ Heal.bucketBySig obs, p.2.1 ≤ c)
    ∧ (∀ e, Heal.selectCanonicalMeta d obs order = Except.error e →
      ∀ p ∈ Heal.bucketBySig obs, p.2.1 < d) := by
  have hnodup := Heal.bucketBySig_keys_nodup (M := M) obs
  have hcount : ∀ sig c m, Heal.sigLookup (Heal.bucketBySig obs) sig = some (c, m) →
      c = Heal.countSig obs sig := by
    intro sig c m hlook
    have h0 : Heal.lookCount (Heal.bucketBySig obs) sig
        = Heal.lookCount ([] : List (String × Nat × M)) sig + Heal.countSig obs sig :=
      Heal.bucketBySig_count obs [] sig
    unfold Heal.lookCount at h0
    rw [hlook] at h0
    simpa [Heal.sigLookup] using h0
  have hmax : ∀ sig1 c1 m1,
      Heal.selectGo (Heal.bucketBySig obs) order none = some (sig1, c1, m1) →
      ∀ p ∈ Heal.bucketBySig obs, p.2.1 ≤ c1 := by
    intro sig1 c1 m1 hgo p hp
    obtain ⟨sig2, c2, m2⟩ := p
    have hlook2 : Heal.sigLookup (Heal.bucketBySig obs) sig2 = some (c2, m2) :=
      Heal.mem_sigLookup_eq _ hnodup _ _ _ hp
    obtain ⟨s3, c3, m3, hgo3, hge⟩ :=
      Heal.selectGo_max (Heal.bucketBySig obs) order none sig2 c2 m2
        (hcover _ hp) hlook2
    rw [hgo] at hgo3
    have hv := Option.some.inj hgo3
    have hcc : c1 = c3 := congrArg (fun p => p.2.1) hv
    rw [← hcc] at hge
    exact hge
  constructor
  · intro m sig c hok
    unfold Heal.selectCanonicalMeta at hok
    match hgo : Heal.selectGo (Heal.bucketBySig obs) order none with
    | none => rw [hgo] at hok; simp at hok
    | some (sig1, c1, m1) =>
      rw [hgo] at hok
      by_cases hc : c1 < d
      · simp [hc] at hok
      · simp only [if_neg hc] at hok
        have hv := Except.ok.inj hok
        have e1 : m1 = m := congrArg Prod.fst hv
        have e2 : sig1 = sig := congrArg (fun p => p.2.1) hv
        have e3 : c1 = c := congrArg (fun p => p.2.2) hv
        subst e1; subst e2; subst e3
        refine ⟨Nat.le_of_not_lt hc, ?_, hmax _ _ _ hgo⟩
        rcases Heal.selectGo_some_src (Heal.bucketBySig obs) order none _ _ _ hgo with
          hl | hnone
        · exact hcount _ _ _ hl
        · simp at hnone
  · intro e herr p hp
    unfold Heal.selectCanonicalMeta at herr
    match hgo : Heal.selectGo (Heal.bucketBySig obs) order none with
    | none =>
      obtain ⟨sig2, c2, m2⟩ := p
      obtain ⟨_, hall⟩ := Heal.selectGo_none (Heal.bucketBySig obs) order none hgo
      have hlook2 : Heal.sigLookup (Heal.bucketBySig obs) sig2 = some (c2, m2) :=
        Heal.mem_sigLookup_eq _ hnodup _ _ _ hp
      rw [hall sig2 (hcover _ hp)] at hlook2
      exact absurd hlook2 (by simp)
    | some (sig1, c1, m1) =>
      rw [hgo] at herr
      by_cases hc : c1 < d
      · exact Nat.lt_of_le_of_lt (hmax _ _ _ hgo p hp) hc
      · simp [hc] at herr

/-- Concrete instantiation of the amended C8 theorem on the tied demonstration
observations with iteration order `["A", "B"]`: the elected signature "A" meets the
quorum `d = 1`, its count equals its occurrence count, and it dominates the table. -/
theorem heal_election_quorum_and_max_witness :
    1 ≤ 1 ∧ 1 = Heal.countSig Heal.obsDemo "A"
      ∧ ∀ p ∈ Heal.bucketBySig Heal.obsDemo, p.2.1 ≤ 1 :=
  (heal_election_quorum_and_max 1 Heal.obsDemo ["A", "B"] (by decide)).1
    10 "A" 1 (by decide)

namespace Dsync

theorem count_split (results : List (Nat × LockResult)) :
    countSuccess results + countNotSuccess results = results.length := by
  induction results with
  | nil => rfl
  | cons hd tl ih =>
    by_cases h : hd.2 = LockResult.Success <;>
      simp [countSuccess, countNotSuccess, List.countP_cons, h] at ih ⊢ <;> omega

theorem dsyncQuorum_write (N : Nat) (h : 1 ≤ N) : dsyncQuorum N true = N / 2 + 1 := by
  unfold dsyncQuorum
  rw [if_neg (by omega : ¬ N = 0)]
  dsimp only
  split
  · next hc => omega
  · next hc =>
    have hq : ¬ N - N / 2 = N / 2 := fun he => hc ⟨rfl, he⟩
    omega

theorem dsyncQuorum_read (N : Nat) (h : 1 ≤ N) : dsyncQuorum N false = N - N / 2 := by
  unfold dsyncQuorum
  rw [if_neg (by omega : ¬ N = 0)]
  dsimp only
  split
  · next hc => exact absurd hc.1 (by decide)
  · next hc => omega

/-- The quorum used is at least the read quorum `N - N/2` and lies in `[1, N]`. -/
theorem dsyncQuorum_bounds (N : Nat) (w : Bool) (h : 1 ≤ N) :
    N - N / 2 ≤ dsyncQuorum N w ∧ 1 ≤ dsyncQuorum N w ∧ dsyncQuorum N w ≤ N := by
  cases w
  · rw [dsyncQuorum_read N h]; omega
  · rw [dsyncQuorum_write N h]; omega

theorem countSuccess_le_length (l : List (Nat × LockResult)) :
    countSuccess l ≤ l.length := by
  induction l with
  | nil => simp [countSuccess]
  | cons a l2 ih =>
    by_cases h : a.2 = LockResult.Success <;>
      simp [countSuccess, List.countP_cons, h] at ih ⊢ <;> omega

theorem acquireGo_cons_success (q t i : Nat) (rest : List (Nat × LockResult))
    (remaining la f : Nat) (g : List Bool) :
    acquireGo q t ((i, LockResult.Success) :: rest) remaining la f g =
      if q ≤ la + 1 ∧ f ≤ t then (la + 1, f, g.set i true)
      else if la + 1 + (remaining - 1) < q ∨ t < f then (la + 1, f, g.set i true)
      else acquireGo q t rest (remaining - 1) (la + 1) f (g.set i true) := by
  rfl

theorem acquireGo_cons_fail (q t i : Nat) (r : LockResult)
    (rest : List (Nat × LockResult)) (remaining la f : Nat) (g : List Bool)
    (h : ¬ r = LockResult.Success) :
    acquireGo q t ((i, r) :: rest) remaining la f g =
      if q ≤ la ∧ f + 1 ≤ t then (la, f + 1, g)
      else if la + (remaining - 1) < q ∨ t < f + 1 then (la, f + 1, g)
      else acquireGo q t rest (remaining - 1) la (f + 1) g := by
  rw [acquireGo]
  simp only [if_neg h]

/-- The final grant counter never exceeds the grants available in the reply list. -/
theorem acquireGo_la_le (q t : Nat) (results : List (Nat × LockResult)) :
    ∀ (remaining la f : Nat) (g : List Bool),
      (acquireGo q t results remaining la f g).1 ≤ la + countSuccess results := by
  induction results with
  | nil => intro remaining la f g; simp [acquireGo, countSuccess]
  | cons hd tl ih =>
    intro remaining la f g
    obtain ⟨i, r⟩ := hd
    by_cases h : r = LockResult.Success
    · subst h
      have hcs : countSuccess ((i, LockResult.Success) :: tl)
          = countSuccess tl + 1 := by
        simp [countSuccess, List.countP_cons]
      rw [acquireGo_cons_success, hcs]
      split
      · show la + 1 ≤ la + (countSuccess tl + 1)
        omega
      · split
        · show la + 1 ≤ la + (countSuccess tl + 1)
          omega
        · have hih := ih (remaining - 1) (la + 1) f (g.set i true)
          omega
    · have hcs : countSuccess ((i, r) :: tl) = countSuccess tl := by
        simp [countSuccess, List.countP_cons, h]
      rw [acquireGo_cons_fail q t i r tl remaining la f g h, hcs]
      split
      · show la ≤ la + countSuccess tl
        omega
      · split
        · show la ≤ la + countSuccess tl
          omega
        · have hih := ih (remaining - 1) la (f + 1) g
          omega

/-- When the reply list holds enough grants and few enough failures, the loop ends in
the success state: quorum reached with failures within tolerance. -/
theorem acquireGo_success (q t : Nat) (results : List (Nat × LockResult)) :
    ∀ (la f : Nat) (g : List Bool),
      q ≤ la + countSuccess results →
      f + countNotSuccess results ≤ t →
      q ≤ (acquireGo q t results results.length la f g).1
        ∧ (acquireGo q t results results.length la f g).2.1 ≤ t := by
  induction results with
  | nil =>
    intro la f g hq hf
    simp [countSuccess, countNotSuccess] at hq hf
    simpa [acquireGo] using ⟨hq, hf⟩
  | cons hd tl ih =>
    intro la f g hq hf
    obtain ⟨i, r⟩ := hd
    have hrem : ((i, r) :: tl).length - 1 = tl.length := by simp
    have hcstl := countSuccess_le_length tl
    by_cases h : r = LockResult.Success
    · subst h
      have hcs : countSuccess ((i, LockResult.Success) :: tl)
          = countSuccess tl + 1 := by
        simp [countSuccess, List.countP_cons]
      have hcn : countNotSuccess ((i, LockResult.Success) :: tl)
          = countNotSuccess tl := by
        simp [countNotSuccess, List.countP_cons]
      rw [hcs] at hq
      rw [hcn] at hf
      rw [acquireGo_cons_success, hrem]
      split
      · next hstop => exact hstop
      · split
        · next hstop hbreak =>
          exfalso
          rcases hbreak with hb | hb <;> omega
        · next =>
          exact ih (la + 1) f (g.set i true) (by omega) (by omega)
    · have hcs : countSuccess ((i, r) :: tl) = countSuccess tl := by
        simp [countSuccess, List.countP_cons, h]
      have hcn : countNotSuccess ((i, r) :: tl) = countNotSuccess tl + 1 := by
        simp [countNotSuccess, List.countP_cons, h]
      rw [hcs] at hq
      rw [hcn] at hf
      rw [acquireGo_cons_fail q t i r tl ((i, r) :: tl).length la f g h, hrem]
      split
      · next hstop => exact hstop
      · split
        · next hstop hbreak =>
          exfalso
          rcases hbreak with hb | hb <;> omega
        · next =>
          exact ih la (f + 1) g (by omega) (by omega)

end Dsync

/-- C1 counterexample: with five lockers the code's write quorum is `3 = N/2 + 1`,
not the claimed `N - f + 1 = 4`: an acquisition with exactly three grants and two
failures succeeds, while the claimed quorum formula would require four grants.  (The
spec's own scenario 5 — three grants out of five succeed — agrees with the code.) -/
theorem dsync_write_quorum_odd_counterexample :
    Dsync.dsyncQuorum 5 true = 3
    ∧ Dsync.specWriteQuorum 5 = 4
    ∧ Dsync.dsyncQuorum 5 true ≠ Dsync.specWriteQuorum 5
    ∧ (Dsync.acquire 5 (Dsync.dsyncQuorum 5 true) Dsync.results5).succeeded = true
    ∧ Dsync.countSuccess Dsync.results5 = 3
    ∧ ¬ Dsync.specWriteQuorum 5 ≤ Dsync.countSuccess Dsync.results5 := by
  refine ⟨?_, ?_, ?_, ?_, ?_, ?_⟩ <;> decide

/-- C1 (amended): for `N ≥ 1` lockers with tolerance `f = N/2`, a write-lock
acquisition uses quorum `q_w = N/2 + 1` (the least strict majority; this equals
`N - f + 1` only for even `N`) and a read-lock acquisition uses `q_r = N - f` (simple
majority); an acquisition over any arrival order of one reply per locker succeeds iff
at least the quorum grant and at most `f` replies fail, and the outcome reports the
quorum and tolerance used. -/
theorem dsync_acquire_quorum (N : Nat) (w : Bool)
    (results : List (Nat × Dsync.LockResult))
    (hN : 1 ≤ N) (hlen : results.length = N) :
    ((Dsync.acquire N (Dsync.dsyncQuorum N w) results).succeeded = true
      ↔ (Dsync.dsyncQuorum N w ≤ Dsync.countSuccess results
          ∧ Dsync.countNotSuccess results ≤ N / 2))
    ∧ (Dsync.acquire N (Dsync.dsyncQuorum N w) results).quorum = Dsync.dsyncQuorum N w
    ∧ (Dsync.acquire N (Dsync.dsyncQuorum N w) results).tolerance = N / 2
    ∧ (w = true → Dsync.dsyncQuorum N w = N / 2 + 1)
    ∧ (w = false → Dsync.dsyncQuorum N w = N - N / 2) := by
  obtain ⟨hge, h1, hle⟩ := Dsync.dsyncQuorum_bounds N w hN
  have hclamp : Dsync.natClamp (Dsync.dsyncQuorum N w) 1 (max N 1)
      = Dsync.dsyncQuorum N w := by
    unfold Dsync.natClamp
    omega
  have hsplit := Dsync.count_split results
  rw [hlen] at hsplit
  unfold Dsync.acquire
  rw [if_neg (by omega : ¬ N = 0)]
  dsimp only
  rw [hclamp]
  unfold Dsync.dsyncTolerance
  refine ⟨?_, rfl, rfl, fun hw => by rw [hw]; exact Dsync.dsyncQuorum_write N hN,
    fun hw => by rw [hw]; exact Dsync.dsyncQuorum_read N hN⟩
  constructor
  · intro hsucc
    rw [decide_eq_true_iff] at hsucc
    have hla := Dsync.acquireGo_la_le (Dsync.dsyncQuorum N w) (N / 2) results N 0 0
      (List.replicate N false)
    have hcs : Dsync.dsyncQuorum N w ≤ Dsync.countSuccess results := by omega
    exact ⟨hcs, by omega⟩
  · intro ⟨hcs, hcn⟩
    rw [decide_eq_true_iff]
    have := Dsync.acquireGo_success (Dsync.dsyncQuorum N w) (N / 2) results 0 0
      (List.replicate N false) (by omega) (by omega)
    rw [hlen] at this
    exact this

/-- Concrete instantiation of the amended C1 theorem: four lockers, write lock,
three grants and one failure in arrival order. -/
theorem dsync_acquire_quorum_witness :
    ((Dsync.acquire 4 (Dsync.dsyncQuorum 4 true)
        [(0, Dsync.LockResult.Success), (1, Dsync.LockResult.Success),
         (2, Dsync.LockResult.Success), (3, Dsync.LockResult.Failed)]).succeeded = true
      ↔ (Dsync.dsyncQuorum 4 true ≤ Dsync.countSuccess
            [(0, Dsync.LockResult.Success), (1, Dsync.LockResult.Success),
             (2, Dsync.LockResult.Success), (3, Dsync.LockResult.Failed)]
          ∧ Dsync.countNotSuccess
            [(0, Dsync.LockResult.Success), (1, Dsync.LockResult.Success),
             (2, Dsync.LockResult.Success), (3, Dsync.LockResult.Failed)] ≤ 4 / 2))
    ∧ (Dsync.acquire 4 (Dsync.dsyncQuorum 4 true)
        [(0, Dsync.LockResult.Success), (1, Dsync.LockResult.Success),
         (2, Dsync.LockResult.Success), (3, Dsync.LockResult.Failed)]).quorum
      = Dsync.dsyncQuorum 4 true
    ∧ (Dsync.acquire 4 (Dsync.dsyncQuorum 4 true)
        [(0, Dsync.LockResult.Success), (1, Dsync.LockResult.Success),
         (2, Dsync.LockResult.Success), (3, Dsync.LockResult.Failed)]).tolerance = 4 / 2
    ∧ (true = true → Dsync.dsyncQuorum 4 true = 4 / 2 + 1)
    ∧ (true = false → Dsync.dsyncQuorum 4 true = 4 - 4 / 2) :=
  dsync_acquire_quorum 4 true
    [(0, Dsync.LockResult.Success), (1, Dsync.LockResult.Success),
     (2, Dsync.LockResult.Success), (3, Dsync.LockResult.Failed)]
    (by decide) (by decide)

namespace Erasure

theorem validateConfig_ok (cfg : ErasureConfig) (hd : 1 ≤ cfg.data_shards)
    (hp : 1 ≤ cfg.parity_shards) (hb : 1 ≤ cfg.block_size) :
    validateConfig cfg = Except.ok () := by
  unfold validateConfig
  rw [if_neg (by omega : ¬ cfg.data_shards = 0),
    if_neg (by omega : ¬ cfg.parity_shards = 0),
    if_neg (by omega : ¬ cfg.block_size = 0)]

theorem ceil_mul_ge (m k : Nat) (hk : 0 < k) : m ≤ (m + k - 1) / k * k := by
  rcases Nat.eq_zero_or_pos m with hm | hm
  · simp [hm]
  · have h2 : m + k - 1 = (m - 1) + k := by omega
    rw [h2, Nat.add_div_right _ hk, Nat.succ_mul]
    have e1 := Nat.div_add_mod (m - 1) k
    have e2 : (m - 1) % k < k := Nat.mod_lt _ hk
    have e3 : (m - 1) / k * k = k * ((m - 1) / k) := Nat.mul_comm _ _
    rw [e3]
    generalize hX : k * ((m - 1) / k) = X at e1 ⊢
    omega

theorem shardSizeRaw_ge (cfg : ErasureConfig) :
    (cfg.block_size + cfg.data_shards - 1) / cfg.data_shards ≤ shardSizeRaw cfg := by
  unfold shardSizeRaw
  dsimp only
  split <;> omega

theorem block_le_mul (cfg : ErasureConfig) (hd : 1 ≤ cfg.data_shards) :
    cfg.block_size ≤ cfg.data_shards * shardSizeRaw cfg := by
  have h1 := ceil_mul_ge cfg.block_size cfg.data_shards (by omega)
  have h3 : (cfg.block_size + cfg.data_shards - 1) / cfg.data_shards * cfg.data_shards
      = cfg.data_shards * ((cfg.block_size + cfg.data_shards - 1) / cfg.data_shards) :=
    Nat.mul_comm _ _
  have h4 : cfg.data_shards * ((cfg.block_size + cfg.data_shards - 1) / cfg.data_shards)
      ≤ cfg.data_shards * shardSizeRaw cfg :=
    Nat.mul_le_mul_left _ (shardSizeRaw_ge cfg)
  exact le_trans h1 (le_trans (le_of_eq h3) h4)

theorem len_le_blockCount_mul (len b : Nat) (hb : 1 ≤ b) :
    len ≤ blockCountOf len b * b := by
  unfold blockCountOf
  split
  · next h => omega
  · next h => exact ceil_mul_ge len b (by omega)

theorem blockCount_pos (len b : Nat) (hb : 1 ≤ b) : 1 ≤ blockCountOf len b := by
  unfold blockCountOf
  split
  · next => omega
  · next h =>
    by_contra hq
    have hq0 : (len + b - 1) / b = 0 := Nat.lt_one_iff.mp (Nat.not_le.mp hq)
    have e1 := Nat.div_add_mod (len + b - 1) b
    rw [hq0, Nat.mul_zero] at e1
    have e2 : (len + b - 1) % b < b := Nat.mod_lt _ (by omega)
    omega

theorem getD_map_range {γ : Type} (n j : Nat) (f : Nat → γ) (dflt : γ) (hj : j < n) :
    ((List.range n).map f).getD j dflt = f j := by
  rw [List.getD_eq_getElem?_getD, List.getElem?_map, List.getElem?_range hj]
  rfl

theorem getElem_map_range {γ : Type} (n j : Nat) (f : Nat → γ) (hj : j < n) :
    ((List.range n).map f)[j]? = some (f j) := by
  rw [List.getElem?_map, List.getElem?_range hj]
  rfl

theorem slice_length {γ : Type} (payload : List γ) (s d i : Nat)
    (hlen : payload.length = d * s) (hi : i < d) :
    ((payload.drop (i * s)).take s).length = s := by
  rw [List.length_take, List.length_drop, hlen]
  have h1 : i * s + s = (i + 1) * s := by ring
  have h2 : (i + 1) * s ≤ d * s := Nat.mul_le_mul_right s (by omega)
  omega

theorem slice_getD {γ : Type} (payload : List γ) (s i j : Nat) (z : γ) (hj : j < s) :
    ((payload.drop (i * s)).take s).getD j z = payload.getD (i * s + j) z := by
  rw [List.getD_eq_getElem?_getD, List.getD_eq_getElem?_getD,
    List.getElem?_take_of_lt hj, List.getElem?_drop]

theorem flatten_slices {γ : Type} (s : Nat) :
    ∀ (d : Nat) (payload : List γ), payload.length = d * s →
      ((List.range d).map (fun i => (payload.drop (i * s)).take s)).flatten
        = payload := by
  intro d
  induction d with
  | zero =>
    intro payload h
    simp only [Nat.zero_mul] at h
    rw [List.length_eq_zero] at h
    simp [h]
  | succ d ih =>
    intro payload h
    rw [List.range_succ_eq_map, List.map_cons, List.map_map, List.flatten_cons]
    have h0 : (payload.drop (0 * s)).take s = payload.take s := by simp
    have hmap : (List.range d).map
          ((fun i => (payload.drop (i * s)).take s) ∘ Nat.succ)
        = (List.range d).map (fun i => ((payload.drop s).drop (i * s)).take s) := by
      apply List.map_congr_left
      intro i _
      show (payload.drop (Nat.succ i * s)).take s
          = ((payload.drop s).drop (i * s)).take s
      rw [List.drop_drop]
      have he : Nat.succ i * s = s + i * s := by
        rw [Nat.succ_mul, Nat.add_comm]
      rw [he]
    have hdroplen : (payload.drop s).length = d * s := by
      rw [List.length_drop, h, Nat.succ_mul, Nat.add_sub_cancel]
    rw [h0, hmap, ih (payload.drop s) hdroplen]
    exact List.take_append_drop s payload

theorem decodeBlock_eval {β : Type}
    (R : ErasureConfig → Nat → List (Option (List β)) → Nat → List β)
    (shards : List (Option (List β))) (cfg : ErasureConfig)
    (hd : 1 ≤ cfg.data_shards) (hp : 1 ≤ cfg.parity_shards) (hb : 1 ≤ cfg.block_size)
    (hlen : shards.length = cfg.total_shards)
    (hav : cfg.data_shards ≤ (shards.filter Option.isSome).length)
    (hsz : ∀ sh ∈ shards, ∀ bytes, sh = some bytes → bytes.length = shardSizeRaw cfg) :
    decodeBlock R shards cfg = Except.ok
      (((List.range cfg.data_shards).map
        (fun idx =>
          match shards.getD idx none with
          | some bytes => bytes
          | none => R cfg (shardSizeRaw cfg) shards idx)).flatten) := by
  unfold decodeBlock
  rw [validateConfig_ok cfg hd hp hb]
  dsimp only
  rw [if_neg (by omega : ¬ shards.length ≠ cfg.total_shards)]
  rw [if_neg (by omega : ¬ (shards.filter Option.isSome).length < cfg.data_shards)]
  have hany : shards.any (fun sh =>
      match sh with
      | some bytes => bytes.length != shardSizeRaw cfg
      | none => false) = false := by
    rw [List.any_eq_false]
    intro sh hmem
    match sh with
    | none => simp
    | some bytes =>
      have := hsz (some bytes) hmem bytes rfl
      simp [this]
  rw [if_neg (by rw [hany]; exact Bool.false_ne_true)]

theorem putBlockChecksums_getElem {β χ : Type} (h : List β → χ) (data : List β)
    (cfg : ErasureConfig) (k : Nat)
    (hk : k < blockCountOf data.length cfg.block_size) :
    (putBlockChecksums h data cfg)[k]? = some (h (blockOf data cfg.block_size k)) := by
  unfold putBlockChecksums
  exact getElem_map_range _ k _ hk

theorem filter_isSome_all {β : Type} (l : List (Option β))
    (hall : ∀ x ∈ l, x.isSome = true) : (l.filter Option.isSome).length = l.length := by
  rw [List.filter_eq_self.mpr hall]

/-- The induction core of the C2 theorem: processing blocks `k, …, count-1` of an
object written by `put_object` over corrupted-but-present shard files either hits the
bitrot gate on some block or returns exactly the remaining data suffix. -/
theorem getLoop_bitrot_or_data {β χ : Type} [DecidableEq χ]
    (R : ErasureConfig → Nat → List (Option (List β)) → Nat → List β)
    (h : List β → χ) (hinj : Function.Injective h)
    (cfg : ErasureConfig) (data : List β) (files : Nat → Nat → Option (List β))
    (hd : 1 ≤ cfg.data_shards) (hp : 1 ≤ cfg.parity_shards) (hb : 1 ≤ cfg.block_size)
    (hdata : data ≠ [])
    (hfiles : ∀ i < blockCountOf data.length cfg.block_size,
      ∀ j < cfg.total_shards,
        ∃ bytes, files i j = some bytes ∧ bytes.length = shardSizeRaw cfg) :
    ∀ (n k : Nat), k + n = blockCountOf data.length cfg.block_size →
      (∃ i, k ≤ i ∧ i < blockCountOf data.length cfg.block_size ∧
        getLoop R h (metaOfPut h data cfg) files cfg k n
          = Except.error (MaxioError.InternalError (bitrotMsg i)))
      ∨ getLoop R h (metaOfPut h data cfg) files cfg k n
          = Except.ok (data.drop (k * cfg.block_size)) := by
  intro n
  induction n with
  | zero =>
    intro k hk
    right
    rw [getLoop]
    have hge : data.length ≤ k * cfg.block_size := by
      have := len_le_blockCount_mul data.length cfg.block_size hb
      have hc : blockCountOf data.length cfg.block_size * cfg.block_size
          = k * cfg.block_size := by rw [← hk]; ring
      omega
    rw [List.drop_eq_nil_of_le hge]
  | succ n ih =>
    intro k hk
    have hklt : k < blockCountOf data.length cfg.block_size := by omega
    rw [getLoop]
    dsimp only
    set shards := (List.range cfg.total_shards).map (fun j => files k j) with hshards
    have hall : ∀ x ∈ shards, x.isSome = true := by
      intro x hx
      rw [hshards] at hx
      obtain ⟨j, hj, hxval⟩ := List.mem_map.mp hx
      obtain ⟨bytes, hbytes, _⟩ := hfiles k hklt j (List.mem_range.mp hj)
      rw [← hxval, hbytes]
      rfl
    have hslen : shards.length = cfg.total_shards := by
      rw [hshards, List.length_map, List.length_range]
    have havail : (shards.filter Option.isSome).length = cfg.total_shards := by
      rw [filter_isSome_all shards hall, hslen]
    have hnotlt : ¬ (shards.filter Option.isSome).length < cfg.data_shards := by
      rw [havail]
      unfold ErasureConfig.total_shards
      omega
    rw [if_neg hnotlt]
    have hsz : ∀ sh ∈ shards, ∀ bytes, sh = some bytes →
        bytes.length = shardSizeRaw cfg := by
      intro sh hmem bytes hval
      rw [hshards] at hmem
      obtain ⟨j, hj, hxval⟩ := List.mem_map.mp hmem
      obtain ⟨bytes2, hbytes2, hblen2⟩ := hfiles k hklt j (List.mem_range.mp hj)
      rw [← hxval, hbytes2] at hval
      rw [← Option.some.inj hval]
      exact hblen2
    rw [decodeBlock_eval R shards cfg hd hp hb hslen (by omega) hsz]
    dsimp only
    set decoded := ((List.range cfg.data_shards).map
      (fun idx =>
        match shards.getD idx none with
        | some bytes => bytes
        | none => R cfg (shardSizeRaw cfg) shards idx)).flatten with hdecoded
    have hdeclen : decoded.length = cfg.data_shards * shardSizeRaw cfg := by
      rw [hdecoded, List.length_flatten]
      have hlens : ((List.range cfg.data_shards).map
          (fun idx =>
            match shards.getD idx none with
            | some bytes => bytes
            | none => R cfg (shardSizeRaw cfg) shards idx)).map List.length
          = (List.range cfg.data_shards).map (fun _ => shardSizeRaw cfg) := by
        rw [List.map_map]
        apply List.map_congr_left
        intro idx hidx
        have hidxlt : idx < cfg.total_shards := by
          have := List.mem_range.mp hidx
          unfold ErasureConfig.total_shards
          omega
        obtain ⟨bytes, hbytes, hblen⟩ := hfiles k hklt idx hidxlt
        have hget : shards.getD idx none = some bytes := by
          rw [hshards, getD_map_range _ _ _ _ hidxlt, hbytes]
        show (match shards.getD idx none with
          | some bytes => bytes
          | none => R cfg (shardSizeRaw cfg) shards idx).length = shardSizeRaw cfg
        rw [hget]
        exact hblen
      rw [hlens, List.map_const', List.sum_replicate, List.length_range, smul_eq_mul]
    have hexp : min cfg.block_size
        ((metaOfPut h data cfg).total_size - k * cfg.block_size)
        ≤ cfg.data_shards * shardSizeRaw cfg := by
      have := block_le_mul cfg hd
      omega
    rw [if_neg (by
      show ¬ decoded.length < min cfg.block_size
        ((metaOfPut h data cfg).total_size - k * cfg.block_size)
      omega)]
    have hcsum : (metaOfPut h data cfg).block_checksums[k]?
        = some (h (blockOf data cfg.block_size k)) :=
      putBlockChecksums_getElem h data cfg k hklt
    rw [hcsum]
    dsimp only
    set block := decoded.take (min cfg.block_size
      ((metaOfPut h data cfg).total_size - k * cfg.block_size)) with hblock
    by_cases hgate : h block = h (blockOf data cfg.block_size k)
    · rw [if_pos hgate]
      have hblockeq : block = blockOf data cfg.block_size k := hinj hgate
      rcases ih (k + 1) (by omega) with ⟨i, hle, hlt, herr⟩ | hok
      · left
        exact ⟨i, by omega, hlt, by rw [herr]⟩
      · right
        rw [hok]
        rw [hblockeq]
        unfold blockOf
        rw [if_neg (by
          intro hc
          exact hdata (List.length_eq_zero.mp hc))]
        have hdrop : data.drop ((k + 1) * cfg.block_size)
            = (data.drop (k * cfg.block_size)).drop cfg.block_size := by
          rw [List.drop_drop]
          have he : (k + 1) * cfg.block_size
              = k * cfg.block_size + cfg.block_size := by
            rw [Nat.add_mul, Nat.one_mul]
          rw [he]
        rw [hdrop]
        dsimp only
        rw [List.take_append_drop]
    · rw [if_neg hgate]
      left
      exact ⟨k, Nat.le_refl k, hklt, rfl⟩

end Erasure

/-- C2: for any object stored by the erasure engine (its `xl.meta` erasure block
records per-block digests of the original data), any corruption of the stored shard
files that keeps them present and of the right size, any behaviour `R` of the
Reed-Solomon decoder, and any collision-free digest `h` standing in for SHA-256,
`get_object` either fails with `InternalError "bitrot detected in block i"` for some
block `i`, or returns exactly the original bytes — never a silently wrong answer. -/
theorem erasure_get_bitrot_or_original {β χ : Type} [DecidableEq β] [DecidableEq χ]
    (R : Erasure.ErasureConfig → Nat → List (Option (List β)) → Nat → List β)
    (h : List β → χ) (hinj : Function.Injective h)
    (cfg : Erasure.ErasureConfig) (data : List β)
    (files : Nat → Nat → Option (List β))
    (hd : 1 ≤ cfg.data_shards) (hp : 1 ≤ cfg.parity_shards)
    (hb : 1 ≤ cfg.block_size)
    (hfiles : ∀ i < Erasure.blockCountOf data.length cfg.block_size,
      ∀ j < cfg.total_shards,
        ∃ bytes, files i j = some bytes
          ∧ bytes.length = Erasure.shardSizeRaw cfg) :
    (∃ i < Erasure.blockCountOf data.length cfg.block_size,
      Erasure.getObject R h (Erasure.metaOfPut h data cfg) files
        = Except.error (MaxioError.InternalError (Erasure.bitrotMsg i)))
    ∨ Erasure.getObject R h (Erasure.metaOfPut h data cfg) files
        = Except.ok data := by
  by_cases hempty : data = []
  · right
    subst hempty
    rfl
  · have hlenpos : data.length ≠ 0 := fun hc => hempty (List.length_eq_zero.mp hc)
    have hcount : Erasure.blockCountOf data.length cfg.block_size
        = (Erasure.putBlockChecksums h data cfg).length := by
      unfold Erasure.putBlockChecksums
      rw [List.length_map, List.length_range]
    have hcountpos := Erasure.blockCount_pos data.length cfg.block_size hb
    unfold Erasure.getObject
    rw [if_neg (by
      show ¬ (Erasure.metaOfPut h data cfg).total_size = 0
      exact hlenpos)]
    dsimp only
    have hne : (Erasure.metaOfPut h data cfg).block_checksums.isEmpty = false := by
      show (Erasure.putBlockChecksums h data cfg).isEmpty = false
      rw [List.isEmpty_eq_false_iff_exists_mem]
      have : 0 < (Erasure.putBlockChecksums h data cfg).length := by omega
      exact List.exists_mem_of_length_pos this
    simp only [hne, Bool.false_eq_true, if_false]
    have hcfg : ({ data_shards := (Erasure.metaOfPut h data cfg).data_shards, parity_shards := (Erasure.metaOfPut h data cfg).parity_shards, block_size := (Erasure.metaOfPut h data cfg).block_size } : Erasure.ErasureConfig) = cfg := rfl
    rw [hcfg]
    rcases Erasure.getLoop_bitrot_or_data R h hinj cfg data files hd hp hb hempty
        hfiles ((Erasure.metaOfPut h data cfg).block_checksums.length) 0
        (by
          show 0 + (Erasure.putBlockChecksums h data cfg).length
              = Erasure.blockCountOf data.length cfg.block_size
          omega) with ⟨i, _, hlt, herr⟩ | hok
    · left
      refine ⟨i, hlt, ?_⟩
      rw [herr]
    · right
      rw [hok]
      simp
      intro hlt2
      exact Nat.le_refl data.length

/-- Concrete instantiation of the C2 theorem: one block, one data and one parity
shard, identity digest, intact files — the read returns the original bytes. -/
theorem erasure_get_bitrot_or_original_witness :
    (∃ i < Erasure.blockCountOf ([5, 7] : List Nat).length 2,
      Erasure.getObject (fun _ _ _ _ => ([] : List Nat)) (fun l => l)
        (Erasure.metaOfPut (fun l => l) [5, 7]
          { data_shards := 1, parity_shards := 1, block_size := 2 })
        (fun _ j => if j = 0 then some [5, 7] else some [9, 9])
        = Except.error (MaxioError.InternalError (Erasure.bitrotMsg i)))
    ∨ Erasure.getObject (fun _ _ _ _ => ([] : List Nat)) (fun l => l)
        (Erasure.metaOfPut (fun l => l) [5, 7]
          { data_shards := 1, parity_shards := 1, block_size := 2 })
        (fun _ j => if j = 0 then some [5, 7] else some [9, 9])
        = Except.ok [5, 7] :=
  erasure_get_bitrot_or_original (fun _ _ _ _ => ([] : List Nat)) (fun l => l)
    (fun _ _ hl => hl) { data_shards := 1, parity_shards := 1, block_size := 2 }
    [5, 7] (fun _ j => if j = 0 then some [5, 7] else some [9, 9])
    (by decide) (by decide) (by decide)
    (by
      intro i hi j hj
      have hj2 : j < 2 := hj
      interval_cases j
      · exact ⟨[5, 7], rfl, rfl⟩
      · exact ⟨[9, 9], rfl, rfl⟩)

namespace Erasure

theorem lagEval_eq_interpolate {F : Type} [Field F] (n : Nat) (v r : Nat → F) (x : F) :
    lagEval n v r x
      = Polynomial.eval x (Lagrange.interpolate (Finset.range n) v r) := by
  unfold lagEval
  rw [Lagrange.interpolate_apply, Polynomial.eval_finset_sum]
  apply Finset.sum_congr rfl
  intro i _
  rw [Polynomial.eval_mul, Polynomial.eval_C]
  congr 1
  unfold Lagrange.basis
  rw [Polynomial.eval_prod]
  apply Finset.prod_congr rfl
  intro j _
  unfold Lagrange.basisDivisor
  rw [Polynomial.eval_mul, Polynomial.eval_C, Polynomial.eval_sub, Polynomial.eval_X,
    Polynomial.eval_C, div_eq_mul_inv, mul_comm]

theorem eq_map_range_of_getD {γ : Type} (l : List γ) (f : Nat → γ) (z : γ) (s : Nat)
    (hlen : l.length = s) (hval : ∀ t, t < s → l.getD t z = f t) :
    l = (List.range s).map f := by
  apply List.ext_getElem
  · rw [List.length_map, List.length_range, hlen]
  · intro t ht1 ht2
    have ht : t < s := by omega
    rw [List.getElem_map, List.getElem_range]
    have hv := hval t ht
    rw [List.getD_eq_getElem?_getD, List.getElem?_eq_getElem ht1] at hv
    simpa using hv

theorem mem_availIndices {γ : Type} (shards : List (Option γ)) (i : Nat) :
    i ∈ availIndices shards
      ↔ i < shards.length ∧ (shards.getD i none).isSome = true := by
  unfold availIndices
  rw [List.mem_filter, List.mem_range]

theorem availIndices_nodup {γ : Type} (shards : List (Option γ)) :
    (availIndices shards).Nodup :=
  List.Nodup.filter _ (List.nodup_range _)

theorem length_availIndices {γ : Type} (shards : List (Option γ)) :
    (availIndices shards).length = (shards.filter Option.isSome).length := by
  induction shards using List.reverseRecOn with
  | nil => rfl
  | append_singleton l a ih =>
    unfold availIndices at ih ⊢
    have hlen : (l ++ [a]).length = l.length + 1 := by
      rw [List.length_append, List.length_singleton]
    rw [hlen, List.range_succ, List.filter_append, List.filter_append,
      List.length_append, List.length_append]
    have h1 : List.filter (fun i => ((l ++ [a]).getD i none).isSome)
          (List.range l.length)
        = List.filter (fun i => (l.getD i none).isSome) (List.range l.length) := by
      apply List.filter_congr
      intro i hi
      rw [List.getD_append _ _ _ _ (List.mem_range.mp hi)]
    have h2 : ((l ++ [a]).getD l.length none) = a := by
      rw [List.getD_append_right _ _ _ _ (Nat.le_refl _), Nat.sub_self]
      rfl
    have h4 : (List.filter (fun i => ((l ++ [a]).getD i none).isSome)
          [l.length]).length
        = (List.filter Option.isSome [a]).length := by
      rw [List.filter_singleton, List.filter_singleton, h2]
      cases a <;> rfl
    rw [h1, ih, h4]

theorem getD_mem_of_lt {γ : Type} (l : List γ) (i : Nat) (z : γ) (h : i < l.length) :
    l.getD i z ∈ l := by
  rw [List.getD_eq_getElem?_getD, List.getElem?_eq_getElem h]
  exact List.getElem_mem h

theorem getD_getElem {γ : Type} (l : List γ) (i : Nat) (z : γ) (h : i < l.length) :
    l.getD i z = l.get ⟨i, h⟩ := by
  rw [List.getD_eq_getElem?_getD, List.getElem?_eq_getElem h]
  rfl

/-- Correctness of the modelled Reed-Solomon restorer: if every present shard of
`masked` carries the evaluations of a family of polynomials of degree below
`data_shards` at its own node, and at least `data_shards` shards are present, then
the recovery of any shard index returns the evaluations at that index's node. -/
theorem rsRecover_eval {F : Type} [Field F] (α : Nat → F)
    (cfg : ErasureConfig) (s : Nat) (masked : List (Option (List F)))
    (P : Nat → Polynomial F)
    (hdeg : ∀ t, (P t).degree < cfg.data_shards)
    (hαI : ∀ i j, i < masked.length → j < masked.length → α i = α j → i = j)
    (hvals : ∀ i bytes, masked.getD i none = some bytes →
      bytes = (List.range s).map (fun t => Polynomial.eval (α i) (P t)))
    (hav : cfg.data_shards ≤ (availIndices masked).length)
    (idx : Nat) :
    rsRecover α cfg s masked idx
      = (List.range s).map (fun t => Polynomial.eval (α idx) (P t)) := by
  unfold rsRecover
  apply List.map_congr_left
  intro t ht
  have hts : t < s := List.mem_range.mp ht
  set pts := (availIndices masked).take cfg.data_shards with hpts
  have hptslen : pts.length = cfg.data_shards := by
    rw [hpts, List.length_take]
    omega
  have hptsnd : pts.Nodup :=
    List.Nodup.sublist (List.take_sublist _ _) (availIndices_nodup masked)
  have hptsmem : ∀ i2, i2 < cfg.data_shards → pts.getD i2 0 ∈ availIndices masked := by
    intro i2 hi2
    have hmem : pts.getD i2 0 ∈ pts := getD_mem_of_lt pts i2 0 (by omega)
    exact List.take_subset _ _ hmem
  have hinj2 : Set.InjOn (fun i2 => α (pts.getD i2 0))
      ((Finset.range cfg.data_shards) : Finset Nat) := by
    intro i2 hi2 j2 hj2 hvv
    have hi2r : i2 < cfg.data_shards := by
      have := Finset.mem_coe.mp hi2
      exact Finset.mem_range.mp this
    have hj2r : j2 < cfg.data_shards := by
      have := Finset.mem_coe.mp hj2
      exact Finset.mem_range.mp this
    have hqi := (mem_availIndices masked _).mp (hptsmem i2 hi2r)
    have hqj := (mem_availIndices masked _).mp (hptsmem j2 hj2r)
    have heq : pts.getD i2 0 = pts.getD j2 0 := hαI _ _ hqi.1 hqj.1 hvv
    rw [getD_getElem pts i2 0 (by omega), getD_getElem pts j2 0 (by omega)] at heq
    have := (List.Nodup.get_inj_iff hptsnd).mp heq
    exact congrArg Fin.val this
  have hval2 : ∀ i2 ∈ Finset.range cfg.data_shards,
      ((masked.getD (pts.getD i2 0) none).getD []).getD t 0
        = Polynomial.eval (α (pts.getD i2 0)) (P t) := by
    intro i2 hi2
    have hi2r : i2 < cfg.data_shards := Finset.mem_range.mp hi2
    have hq := (mem_availIndices masked _).mp (hptsmem i2 hi2r)
    obtain ⟨bytes, hbytes⟩ := Option.isSome_iff_exists.mp hq.2
    have hb2 := hvals _ bytes hbytes
    rw [hbytes]
    show bytes.getD t 0 = _
    rw [hb2, getD_map_range s t _ 0 hts]
  rw [lagEval_eq_interpolate]
  have hstep : Lagrange.interpolate (Finset.range cfg.data_shards)
        (fun i2 => α (pts.getD i2 0))
        (fun i2 => ((masked.getD (pts.getD i2 0) none).getD []).getD t 0)
      = P t := by
    have h5 : Lagrange.interpolate (Finset.range cfg.data_shards)
          (fun i2 => α (pts.getD i2 0))
          (fun i2 => ((masked.getD (pts.getD i2 0) none).getD []).getD t 0)
        = Lagrange.interpolate (Finset.range cfg.data_shards)
          (fun i2 => α (pts.getD i2 0))
          (fun i2 => Polynomial.eval ((fun i3 => α (pts.getD i3 0)) i2) (P t)) :=
      Lagrange.interpolate_eq_of_values_eq_on _ _ hval2
    rw [h5]
    exact (Lagrange.eq_interpolate hinj2 (by
      rw [Finset.card_range]
      exact hdeg t)).symm
  rw [hstep]

theorem shardSizeRaw_pos (cfg : ErasureConfig) (hd : 1 ≤ cfg.data_shards)
    (hb : 1 ≤ cfg.block_size) : 1 ≤ shardSizeRaw cfg := by
  rcases Nat.eq_zero_or_pos (shardSizeRaw cfg) with h0 | h
  · have hbl := block_le_mul cfg hd
    rw [h0, Nat.mul_zero] at hbl
    omega
  · exact h

end Erasure

/-- C3: over any field with an injective node map on the shard indices, for every
valid erasure config and every data block of at most `block_size` symbols,
`encode_block` (with the Reed-Solomon arithmetic modelled polynomially) returns
exactly `data_shards + parity_shards` shards — the data slices of the zero-padded
payload first, the parity shards second, every shard exactly `shard_size` symbols
(`ceil(block_size/data_shards)` rounded up to even) — and `decode_block` applied to
any availability pattern keeping at least `data_shards` shards returns a block whose
first `data.length` symbols are exactly the original data. -/
theorem erasure_codec_shape_and_round_trip {F : Type} [Field F] [DecidableEq F]
    (α : Nat → F) (cfg : Erasure.ErasureConfig) (data : List F) (m : Nat → Bool)
    (hα : ∀ i, i < cfg.total_shards → ∀ j, j < cfg.total_shards → α i = α j → i = j)
    (hd : 1 ≤ cfg.data_shards) (hp : 1 ≤ cfg.parity_shards) (hb : 1 ≤ cfg.block_size)
    (hlen : data.length ≤ cfg.block_size)
    (hm : cfg.data_shards ≤ ((List.range cfg.total_shards).filter m).length) :
    ∃ shards : List (List F),
      Erasure.encodeBlock 0 (Erasure.rsParity α) data cfg = Except.ok shards
      ∧ shards.length = cfg.total_shards
      ∧ (∀ i, i < cfg.total_shards →
          (shards.getD i []).length = Erasure.shardSizeRaw cfg)
      ∧ (∀ i, i < cfg.data_shards → shards.getD i []
          = ((data ++ List.replicate
                (cfg.data_shards * Erasure.shardSizeRaw cfg - data.length) 0).drop
              (i * Erasure.shardSizeRaw cfg)).take (Erasure.shardSizeRaw cfg))
      ∧ (∀ k, k < cfg.parity_shards → shards.getD (cfg.data_shards + k) []
          = Erasure.rsParity α cfg (Erasure.shardSizeRaw cfg)
              (shards.take cfg.data_shards) k)
      ∧ ∃ block : List F,
          Erasure.decodeBlock (Erasure.rsRecover α)
            ((List.range cfg.total_shards).map
              (fun i => if m i then some (shards.getD i []) else none)) cfg
            = Except.ok block
          ∧ block.take data.length = data := by
  have htot : cfg.total_shards = cfg.data_shards + cfg.parity_shards := rfl
  set s := Erasure.shardSizeRaw cfg with hs
  have hds : data.length ≤ cfg.data_shards * s :=
    le_trans hlen (Erasure.block_le_mul cfg hd)
  set payload := data ++ List.replicate (cfg.data_shards * s - data.length) 0
    with hpayload
  have hplen : payload.length = cfg.data_shards * s := by
    rw [hpayload, List.length_append, List.length_replicate]
    exact Nat.add_sub_cancel' hds
  set dataShards := (List.range cfg.data_shards).map
    (fun idx => (payload.drop (idx * s)).take s) with hdataShards
  set parityShards := (List.range cfg.parity_shards).map
    (fun k => Erasure.rsParity α cfg s dataShards k) with hparityShards
  have hdl : dataShards.length = cfg.data_shards := by
    rw [hdataShards, List.length_map, List.length_range]
  have henc : Erasure.encodeBlock 0 (Erasure.rsParity α) data cfg
      = Except.ok (dataShards ++ parityShards) := by
    unfold Erasure.encodeBlock
    rw [Erasure.validateConfig_ok cfg hd hp hb]
    dsimp only
    rw [if_neg (by omega : ¬ cfg.block_size < data.length)]
  have hlen2 : (dataShards ++ parityShards).length = cfg.total_shards := by
    rw [List.length_append, hdataShards, hparityShards, List.length_map,
      List.length_map, List.length_range, List.length_range, htot]
  have hdataPart : ∀ i, i < cfg.data_shards →
      (dataShards ++ parityShards).getD i [] = (payload.drop (i * s)).take s := by
    intro i hi
    rw [List.getD_append _ _ _ _ (by rw [hdl]; exact hi)]
    rw [hdataShards]
    exact Erasure.getD_map_range _ i _ [] hi
  set P := fun t => Lagrange.interpolate (Finset.range cfg.data_shards) α
    (fun i => (dataShards.getD i []).getD t 0) with hP
  have hαd : Set.InjOn α ((Finset.range cfg.data_shards) : Finset Nat) := by
    intro i hi j hj hij
    have hi2 : i < cfg.data_shards := Finset.mem_range.mp (Finset.mem_coe.mp hi)
    have hj2 : j < cfg.data_shards := Finset.mem_range.mp (Finset.mem_coe.mp hj)
    exact hα i (by omega) j (by omega) hij
  have hdegP : ∀ t, (P t).degree < cfg.data_shards := by
    intro t
    have h6 := Lagrange.degree_interpolate_lt
      (fun i => (dataShards.getD i []).getD t 0) hαd
    rwa [Finset.card_range] at h6
  have hnode : ∀ i, i < cfg.data_shards → ∀ t,
      Polynomial.eval (α i) (P t) = (dataShards.getD i []).getD t 0 := by
    intro i hi t
    exact Lagrange.eval_interpolate_at_node _ hαd (Finset.mem_range.mpr hi)
  have hsym : ∀ i, i < cfg.total_shards →
      (dataShards ++ parityShards).getD i []
        = (List.range s).map (fun t => Polynomial.eval (α i) (P t)) := by
    intro i hi
    by_cases hid : i < cfg.data_shards
    · rw [hdataPart i hid]
      apply Erasure.eq_map_range_of_getD _ _ 0 s
      · exact Erasure.slice_length payload s cfg.data_shards i hplen hid
      · intro t ht
        rw [hnode i hid t, hdataShards, Erasure.getD_map_range _ i _ [] hid]
    · have hk : i - cfg.data_shards < cfg.parity_shards := by omega
      rw [List.getD_append_right _ _ _ _ (by rw [hdl]; omega)]
      rw [hdl]
      rw [hparityShards, Erasure.getD_map_range _ _ _ [] hk]
      unfold Erasure.rsParity
      apply List.map_congr_left
      intro t ht
      rw [Erasure.lagEval_eq_interpolate]
      have hdk : cfg.data_shards + (i - cfg.data_shards) = i := by omega
      rw [hdk]
  have hsizes : ∀ i, i < cfg.total_shards →
      ((dataShards ++ parityShards).getD i []).length = s := by
    intro i hi
    rw [hsym i hi, List.length_map, List.length_range]
  have htake : (dataShards ++ parityShards).take cfg.data_shards = dataShards := by
    rw [← hdl]
    exact List.take_left _ _
  have hparityPart : ∀ k, k < cfg.parity_shards →
      (dataShards ++ parityShards).getD (cfg.data_shards + k) []
        = Erasure.rsParity α cfg s
            ((dataShards ++ parityShards).take cfg.data_shards) k := by
    intro k hk
    rw [htake]
    rw [List.getD_append_right _ _ _ _ (by rw [hdl]; omega)]
    rw [hdl, Nat.add_sub_cancel_left]
    rw [hparityShards, Erasure.getD_map_range _ k _ [] hk]
  set masked := (List.range cfg.total_shards).map
    (fun i => if m i then some ((dataShards ++ parityShards).getD i []) else none)
    with hmasked
  have hmlen : masked.length = cfg.total_shards := by
    rw [hmasked, List.length_map, List.length_range]
  have hmget : ∀ i, i < cfg.total_shards → masked.getD i none
      = if m i then some ((dataShards ++ parityShards).getD i []) else none := by
    intro i hi
    rw [hmasked]
    exact Erasure.getD_map_range _ i _ none hi
  have hfilter : (masked.filter Option.isSome).length
      = ((List.range cfg.total_shards).filter m).length := by
    rw [hmasked, List.filter_map, List.length_map]
    congr 1
    apply List.filter_congr
    intro i hi
    show ((if m i then some ((dataShards ++ parityShards).getD i []) else none).isSome)
      = m i
    cases hmi : m i <;> simp [hmi]
  have hav2 : cfg.data_shards ≤ (masked.filter Option.isSome).length := by
    rw [hfilter]
    exact hm
  have hsz2 : ∀ sh ∈ masked, ∀ bytes, sh = some bytes → bytes.length = s := by
    intro sh hmem bytes hval
    rw [hmasked] at hmem
    obtain ⟨i, hi, hival⟩ := List.mem_map.mp hmem
    have hi2 : i < cfg.total_shards := List.mem_range.mp hi
    rw [← hival] at hval
    by_cases hmi : m i
    · rw [if_pos hmi] at hval
      rw [← Option.some.inj hval]
      exact hsizes i hi2
    · rw [if_neg hmi] at hval
      exact absurd hval (by simp)
  have hvals2 : ∀ i bytes, masked.getD i none = some bytes →
      bytes = (List.range s).map (fun t => Polynomial.eval (α i) (P t)) := by
    intro i bytes hbytes
    by_cases hi : i < cfg.total_shards
    · rw [hmget i hi] at hbytes
      by_cases hmi : m i
      · rw [if_pos hmi] at hbytes
        rw [← Option.some.inj hbytes]
        exact hsym i hi
      · rw [if_neg hmi] at hbytes
        exact absurd hbytes (by simp)
    · rw [List.getD_eq_default _ _ (by omega : masked.length ≤ i)] at hbytes
      exact absurd hbytes (by simp)
  have hαI2 : ∀ i j, i < masked.length → j < masked.length → α i = α j → i = j := by
    intro i j hi hj
    rw [hmlen] at hi hj
    exact hα i hi j hj
  have havail : cfg.data_shards ≤ (Erasure.availIndices masked).length := by
    rw [Erasure.length_availIndices]
    exact hav2
  have hdec := Erasure.decodeBlock_eval (Erasure.rsRecover α) masked cfg hd hp hb
    hmlen hav2 hsz2
  have horig : (List.range cfg.data_shards).map
      (fun idx => match masked.getD idx none with
        | some bytes => bytes
        | none => Erasure.rsRecover α cfg s masked idx)
      = dataShards := by
    rw [hdataShards]
    apply List.map_congr_left
    intro idx hidx
    have hidxd : idx < cfg.data_shards := List.mem_range.mp hidx
    have hidxt : idx < cfg.total_shards := by omega
    rw [hmget idx hidxt]
    by_cases hmi : m idx
    · rw [if_pos hmi]
      show (dataShards ++ parityShards).getD idx [] = (payload.drop (idx * s)).take s
      exact hdataPart idx hidxd
    · rw [if_neg hmi]
      show Erasure.rsRecover α cfg s masked idx = (payload.drop (idx * s)).take s
      rw [Erasure.rsRecover_eval α cfg s masked P hdegP hαI2 hvals2 havail idx]
      rw [← hsym idx hidxt]
      exact hdataPart idx hidxd
  refine ⟨dataShards ++ parityShards, henc, hlen2, hsizes, hdataPart, hparityPart,
    payload, ?_, ?_⟩
  · show Erasure.decodeBlock (Erasure.rsRecover α) masked cfg = Except.ok payload
    rw [hdec]
    show Except.ok ((List.range cfg.data_shards).map
      (fun idx => match masked.getD idx none with
        | some bytes => bytes
        | none => Erasure.rsRecover α cfg s masked idx)).flatten = Except.ok payload
    rw [horig, hdataShards, Erasure.flatten_slices s cfg.data_shards payload hplen]
  · rw [hpayload]
    exact List.take_left _ _

/-- Concrete instantiation of the C3 theorem over the field with five elements: two
data shards and one parity shard of size two, data `[1, 2]`, data shard 0 lost; the
encode shape facts hold and the decode returns `[1, 2]`. -/
theorem erasure_codec_shape_and_round_trip_witness :
    (∀ i, i < rsDemoCfg.total_shards → ∀ j, j < rsDemoCfg.total_shards →
      rsDemoAlpha i = rsDemoAlpha j → i = j)
    ∧ 1 ≤ rsDemoCfg.data_shards ∧ 1 ≤ rsDemoCfg.parity_shards
    ∧ 1 ≤ rsDemoCfg.block_size
    ∧ ([(1 : ZMod 5), 2]).length ≤ rsDemoCfg.block_size
    ∧ rsDemoCfg.data_shards
        ≤ ((List.range rsDemoCfg.total_shards).filter rsDemoMask).length
    ∧ ∃ shards : List (List (ZMod 5)),
        Erasure.encodeBlock 0 (Erasure.rsParity rsDemoAlpha) [(1 : ZMod 5), 2]
          rsDemoCfg = Except.ok shards
        ∧ shards.length = rsDemoCfg.total_shards
        ∧ (∀ i, i < rsDemoCfg.total_shards →
            (shards.getD i []).length = Erasure.shardSizeRaw rsDemoCfg)
        ∧ (∀ i, i < rsDemoCfg.data_shards → shards.getD i []
            = (([(1 : ZMod 5), 2] ++ List.replicate
                  (rsDemoCfg.data_shards * Erasure.shardSizeRaw rsDemoCfg
                    - ([(1 : ZMod 5), 2]).length) 0).drop
                (i * Erasure.shardSizeRaw rsDemoCfg)).take
                  (Erasure.shardSizeRaw rsDemoCfg))
        ∧ (∀ k, k < rsDemoCfg.parity_shards →
            shards.getD (rsDemoCfg.data_shards + k) []
              = Erasure.rsParity rsDemoAlpha rsDemoCfg
                  (Erasure.shardSizeRaw rsDemoCfg)
                  (shards.take rsDemoCfg.data_shards) k)
        ∧ ∃ block : List (ZMod 5),
            Erasure.decodeBlock (Erasure.rsRecover rsDemoAlpha)
              ((List.range rsDemoCfg.total_shards).map
                (fun i => if rsDemoMask i then some (shards.getD i []) else none))
              rsDemoCfg
              = Except.ok block
            ∧ block.take ([(1 : ZMod 5), 2]).length = [(1 : ZMod 5), 2] :=
  ⟨by decide, by decide, by decide, by decide, by decide, by decide,
    erasure_codec_shape_and_round_trip rsDemoAlpha rsDemoCfg [(1 : ZMod 5), 2]
      rsDemoMask (by decide) (by decide) (by decide) (by decide) (by decide)
      (by decide)⟩

end Maxio
